import Mathlib

/-!
Verification of the room-server core of the minesweeper multiplayer server.

The server-side core (GameEngine, RoomSession, RoomRegistry, MessageCodec) is
modelled here as a shallow embedding; the data model and operations follow the
design document of the repository.  Sources of randomness (mine placement,
fresh room identifiers) are modelled as explicit oracle parameters.
-/

namespace Minesweeper

/-- A single board cell: mined flag, precomputed neighbour mine count,
revealed flag and player flag. -/
structure Cell where
  is_mine : Bool
  adjacent_mine_count : Nat
  revealed : Bool
  flagged : Bool
deriving DecidableEq, Repr

/-- Board configuration: `cols`, `rows` and number of `mines`. -/
structure RoomConfig where
  cols : Nat
  rows : Nat
  mines : Nat
deriving DecidableEq, Repr

/-- Default cell used for out-of-range reads. -/
def defaultCell : Cell := ⟨false, 0, false, false⟩

/-- A rectangular board, `rows × cols`, stored row-major. -/
structure Board where
  rows : Nat
  cols : Nat
  cells : List Cell
deriving DecidableEq, Repr

/-- Well-formedness: the flat cell list has exactly `rows * cols` entries. -/
def Board.Wf (b : Board) : Prop := b.cells.length = b.rows * b.cols

instance (b : Board) : Decidable b.Wf := by unfold Board.Wf; infer_instance

/-- Read the cell at `(r, c)` (row-major indexing). -/
def getCell (b : Board) (r c : Nat) : Cell := b.cells.getD (r * b.cols + c) defaultCell

/-- Replace the cell at `(r, c)` (row-major indexing). -/
def setCell (b : Board) (r c : Nat) (cell : Cell) : Board :=
  { b with cells := b.cells.set (r * b.cols + c) cell }

/-- The eight relative offsets of the neighbourhood of a cell. -/
def neighborOffsets : List (Int × Int) :=
  [(-1, -1), (-1, 0), (-1, 1), (0, -1), (0, 1), (1, -1), (1, 0), (1, 1)]

/-- The in-range 8-neighbours of `(r, c)` on a `rows × cols` board. -/
def neighbors (rows cols r c : Nat) : List (Nat × Nat) :=
  neighborOffsets.filterMap fun d =>
    let nr : Int := (r : Int) + d.1
    let nc : Int := (c : Int) + d.2
    if 0 ≤ nr ∧ nr < (rows : Int) ∧ 0 ≤ nc ∧ nc < (cols : Int) then
      some (nr.toNat, nc.toNat)
    else
      none

/-- Modelled from the spec: `generate(config, exclude_cell?) -> Board` of the
GameEngine (the Rust implementation is not in the repository snapshot).  It
places exactly `config.mines` mines and computes `adjacent_mine_count` for
every cell from its up-to-8 neighbours.  The random uniform choice of mine
positions is modelled by the explicit `mineSet` oracle parameter. -/
def generate (cfg : RoomConfig) (mineSet : Finset (Nat × Nat)) : Board :=
  { rows := cfg.rows
    cols := cfg.cols
    cells := (List.range (cfg.rows * cfg.cols)).map fun i =>
      { is_mine := decide ((i / cfg.cols, i % cfg.cols) ∈ mineSet)
        adjacent_mine_count :=
          ((neighbors cfg.rows cfg.cols (i / cfg.cols) (i % cfg.cols)).filter
            fun q => decide (q ∈ mineSet)).length
        revealed := false
        flagged := false } }

/-- Result tag of a reveal operation. -/
inductive Outcome where
  | Continue : Outcome
  | Won : Outcome
  | Lost : Outcome
deriving DecidableEq, Repr

/-- Result of a reveal: the updated board, the set of cells revealed by this
single operation, and the outcome tag. -/
structure RevealOutcome where
  board : Board
  cells : List (Nat × Nat)
  outcome : Outcome
deriving DecidableEq, Repr

/-- `(r, c)` is an in-range coordinate of `b`. -/
def inRange (b : Board) (p : Nat × Nat) : Prop := p.1 < b.rows ∧ p.2 < b.cols

instance (b : Board) (p : Nat × Nat) : Decidable (inRange b p) := by
  unfold inRange; infer_instance

/-- The cell at `p` is neither revealed nor flagged. -/
def freshCell (b : Board) (p : Nat × Nat) : Prop :=
  (getCell b p.1 p.2).revealed = false ∧ (getCell b p.1 p.2).flagged = false

instance (b : Board) (p : Nat × Nat) : Decidable (freshCell b p) := by
  unfold freshCell; infer_instance

/-- Modelled from the spec: the recursive flood-fill worklist loop of
`GameEngine.reveal` (the Rust implementation is not in the repository
snapshot).  Processes one worklist entry per step: an already revealed or
flagged cell is skipped, otherwise the cell is marked revealed, recorded, and
its 8-neighbours are enqueued when its `adjacent_mine_count` is zero.  The
explicit `fuel` bounds the recursion; `none` means the fuel ran out (which
never happens for the fuel chosen by `reveal`). -/
def revealFrom : Nat → Board → List (Nat × Nat) → Option (Board × List (Nat × Nat))
  | 0, _, _ => none
  | _ + 1, b, [] => some (b, [])
  | fuel + 1, b, p :: rest =>
    let cell := getCell b p.1 p.2
    if cell.revealed || cell.flagged then
      revealFrom fuel b rest
    else
      let b1 := setCell b p.1 p.2 { cell with revealed := true }
      match revealFrom fuel b1
        ((if cell.adjacent_mine_count = 0 then neighbors b.rows b.cols p.1 p.2 else [])
          ++ rest) with
      | some (b2, s) => some (b2, p :: s)
      | none => none

/-- Every non-mine cell of the board is revealed (the winning condition). -/
def allSafeRevealed (b : Board) : Bool :=
  b.cells.all fun cell => cell.is_mine || cell.revealed

/-- Modelled from the spec: `reveal(board, row, col) -> RevealOutcome` of the
GameEngine (the Rust implementation is not in the repository snapshot).
Already revealed or flagged target: no-op.  Mine: mark revealed, `Lost`.
Otherwise flood-fill from the target and report `Won` exactly when every
non-mine cell is revealed afterwards. -/
def reveal (b : Board) (r c : Nat) : RevealOutcome :=
  if (getCell b r c).revealed || (getCell b r c).flagged then
    ⟨b, [], Outcome.Continue⟩
  else if (getCell b r c).is_mine then
    ⟨setCell b r c { getCell b r c with revealed := true }, [(r, c)], Outcome.Lost⟩
  else
    match revealFrom (9 * b.cells.length + 2) b [(r, c)] with
    | some (b2, s) => ⟨b2, s, if allSafeRevealed b2 then Outcome.Won else Outcome.Continue⟩
    | none => ⟨b, [], Outcome.Continue⟩

/-- Modelled from the spec: `toggle_flag(board, row, col) -> bool` of the
GameEngine (the Rust implementation is not in the repository snapshot).
Flips `flagged` on an unrevealed cell, no-op on revealed cells, and returns
the resulting flag state. -/
def toggle_flag (b : Board) (r c : Nat) : Board × Bool :=
  if (getCell b r c).revealed then
    (b, (getCell b r c).flagged)
  else
    (setCell b r c { getCell b r c with flagged := !(getCell b r c).flagged },
      !(getCell b r c).flagged)

/-- Number of not-yet-revealed cells of a board. -/
def unrevealedCount (b : Board) : Nat := b.cells.countP fun cell => !cell.revealed

/-- Post-condition of the flood-fill loop `revealFrom b wl = some (b', s)`:
dimensions and well-formedness are preserved, `s` lists (without duplicates)
exactly the cells flipped to revealed — all of them previously unrevealed and
unflagged — every worklist entry ends up revealed or flagged, and the
zero-adjacency cells of `s` have all their neighbours revealed or flagged. -/
def FloodResult (b : Board) (wl : List (Nat × Nat)) (b' : Board)
    (s : List (Nat × Nat)) : Prop :=
  b'.rows = b.rows ∧ b'.cols = b.cols ∧ b'.Wf ∧ s.Nodup ∧
  (∀ p ∈ s, inRange b p ∧ freshCell b p) ∧
  (∀ x y, x < b.rows → y < b.cols →
     getCell b' x y =
       if (x, y) ∈ s then { getCell b x y with revealed := true }
       else getCell b x y) ∧
  (∀ p ∈ wl, (getCell b' p.1 p.2).revealed = true ∨ (getCell b' p.1 p.2).flagged = true) ∧
  (∀ p ∈ s, (getCell b p.1 p.2).adjacent_mine_count = 0 →
     ∀ q ∈ neighbors b.rows b.cols p.1 p.2,
       (getCell b' q.1 q.2).revealed = true ∨ (getCell b' q.1 q.2).flagged = true)

/-- The behaviour the spec requires of `reveal b r c` at an in-range
coordinate: a no-op on a revealed or flagged cell; mark-and-`Lost` on a mine;
otherwise a flood fill that reports exactly the newly revealed cells and sets
the `Won` flag exactly when every non-mine cell is revealed afterwards. -/
def RevealBehaviour (b : Board) (r c : Nat) : Prop :=
  ((getCell b r c).revealed = true ∨ (getCell b r c).flagged = true →
      reveal b r c = ⟨b, [], Outcome.Continue⟩) ∧
  ((getCell b r c).revealed = false → (getCell b r c).flagged = false →
      (getCell b r c).is_mine = true →
      reveal b r c = ⟨setCell b r c { getCell b r c with revealed := true },
        [(r, c)], Outcome.Lost⟩) ∧
  ((getCell b r c).revealed = false → (getCell b r c).flagged = false →
      (getCell b r c).is_mine = false →
      (r, c) ∈ (reveal b r c).cells ∧
      (reveal b r c).board.rows = b.rows ∧
      (reveal b r c).board.cols = b.cols ∧
      (reveal b r c).board.Wf ∧
      (reveal b r c).cells.Nodup ∧
      (∀ p ∈ (reveal b r c).cells, inRange b p ∧ freshCell b p) ∧
      (∀ x y, x < b.rows → y < b.cols →
        getCell (reveal b r c).board x y =
          if (x, y) ∈ (reveal b r c).cells
          then { getCell b x y with revealed := true }
          else getCell b x y) ∧
      ((getCell b r c).adjacent_mine_count ≠ 0 → (reveal b r c).cells = [(r, c)]) ∧
      (∀ p ∈ (reveal b r c).cells, (getCell b p.1 p.2).adjacent_mine_count = 0 →
        ∀ q ∈ neighbors b.rows b.cols p.1 p.2, freshCell b q →
          q ∈ (reveal b r c).cells) ∧
      ((reveal b r c).outcome = Outcome.Won ↔
        ∀ x y, x < b.rows → y < b.cols →
          (getCell (reveal b r c).board x y).is_mine = false →
          (getCell (reveal b r c).board x y).revealed = true) ∧
      ((reveal b r c).outcome = Outcome.Won ∨ (reveal b r c).outcome = Outcome.Continue))

/-- A concrete well-formed 2×2 board: one mine at `(0, 0)`, the other cells
carry adjacency count 1. -/
def sampleBoard : Board :=
  ⟨2, 2, [⟨true, 0, false, false⟩, ⟨false, 1, false, false⟩,
    ⟨false, 1, false, false⟩, ⟨false, 1, false, false⟩]⟩

/-- Connectivity through the zero-adjacency region: `(r, c)` itself is
reachable, and from any reachable fresh zero-adjacency cell every one of its
8-neighbours is reachable. -/
inductive Reach (b : Board) (r c : Nat) : Nat × Nat → Prop where
  | base : Reach b r c (r, c)
  | step (p q : Nat × Nat) : Reach b r c p → freshCell b p →
      (getCell b p.1 p.2).adjacent_mine_count = 0 →
      q ∈ neighbors b.rows b.cols p.1 p.2 → Reach b r c q

/-- The behaviour the spec requires of a zero-adjacency reveal: the revealed
set is connected to the target through zero-adjacency cells (so it is bounded
by non-zero-adjacency or mined cells), it is closed under taking fresh
neighbours of its zero-adjacency cells, and revealing any of its cells again
is a no-op on the resulting board. -/
def ZeroRegionBehaviour (b : Board) (r c : Nat) : Prop :=
  (∀ p ∈ (reveal b r c).cells, Reach b r c p) ∧
  (∀ p ∈ (reveal b r c).cells, (getCell b p.1 p.2).adjacent_mine_count = 0 →
     ∀ q ∈ neighbors b.rows b.cols p.1 p.2, freshCell b q →
       q ∈ (reveal b r c).cells) ∧
  (∀ p ∈ (reveal b r c).cells,
     reveal (reveal b r c).board p.1 p.2 =
       ⟨(reveal b r c).board, [], Outcome.Continue⟩)

/-- A concrete well-formed 3×3 board with a single mine at `(0, 0)`:
`(2, 2)` is a fresh zero-adjacency non-mine cell. -/
def sampleBoard3 : Board :=
  ⟨3, 3, [⟨true, 0, false, false⟩, ⟨false, 1, false, false⟩, ⟨false, 0, false, false⟩,
    ⟨false, 1, false, false⟩, ⟨false, 1, false, false⟩, ⟨false, 0, false, false⟩,
    ⟨false, 0, false, false⟩, ⟨false, 0, false, false⟩, ⟨false, 0, false, false⟩]⟩

/-- A player as carried in the protocol messages. -/
structure Player where
  user_id : String
  user_name : String
  user_icon : String
deriving DecidableEq, Repr

/-- The three phases of a room's state machine. -/
inductive Phase where
  | Lobby : Phase
  | InProgress : Phase
  | Ended : Phase
deriving DecidableEq, Repr

/-- A room: configuration, fixed capacity, ordered player list, phase, the
optional board (`none` until the game starts) and a step counter. -/
structure Room where
  config : RoomConfig
  capacity : Nat
  players : List Player
  phase : Phase
  board : Option Board
  steps : Nat
deriving DecidableEq, Repr

/-- A per-cell game operation. -/
inductive GOp where
  | Reveal (row col : Nat) : GOp
  | Flag (row col : Nat) : GOp
deriving DecidableEq, Repr

/-- The inbound request variants of the protocol. -/
inductive Request where
  | InitRoom (config : RoomConfig) (player : Player) : Request
  | JoinRoom (room_id : String) (player : Player) : Request
  | GameOp (room_id : String) (player_id : String) (op : GOp) : Request
deriving DecidableEq, Repr

/-- Payload of a `GameOpRes` event. -/
structure OpResult where
  revealed_cells : List (Nat × Nat)
  flags : List (Nat × Nat)
  outcome : Outcome
deriving DecidableEq, Repr

/-- The outbound response variants, as in the serde-tagged `ResponseModel`
enum quoted in the repository's test notes. -/
inductive ResponseModel where
  | JoinRoom (player : Player) : ResponseModel
  | InitRoom (room_id : String) : ResponseModel
  | GameStart (players : List Player) (config : RoomConfig) : ResponseModel
  | GameOpRes (op_res : OpResult) : ResponseModel
  | GameEnd (success : Bool) (scores : Nat) (duration : Nat) (steps : Nat) : ResponseModel
  | InvalidRequest (error : String) : ResponseModel
deriving DecidableEq, Repr

/-- Modelled from the spec: `JoinRoom` handling of the RoomSession state
machine (the Rust implementation is not in the repository snapshot).  A Lobby
room appends the player if not already present and not full (rejecting with
`room full` at capacity) and starts the game when the configured player count
is reached; an Ended room rejects with `room ended`.  `ms` is the mine-choice
oracle passed to `generate` at game start. -/
def applyJoin (ms : Finset (Nat × Nat)) (room : Room) (pl : Player) :
    Room × List ResponseModel :=
  match room.phase with
  | Phase.Ended => (room, [ResponseModel.InvalidRequest ("room ended")])
  | Phase.InProgress => (room, [ResponseModel.InvalidRequest ("game in progress")])
  | Phase.Lobby =>
    if room.players.any fun q => q.user_id == pl.user_id then
      (room, [ResponseModel.InvalidRequest ("already joined")])
    else if room.capacity ≤ room.players.length then
      (room, [ResponseModel.InvalidRequest ("room full")])
    else if room.players.length + 1 = room.capacity then
      ({ room with
          players := room.players ++ [pl]
          phase := Phase.InProgress
          board := some (generate room.config ms) },
       [ResponseModel.JoinRoom pl,
        ResponseModel.GameStart (room.players ++ [pl]) room.config])
    else
      ({ room with players := room.players ++ [pl] }, [ResponseModel.JoinRoom pl])

/-- Modelled from the spec: `GameOp` handling of the RoomSession state machine
(the Rust implementation is not in the repository snapshot).  Only an
InProgress room accepts operations, only from a participant, only at in-range
coordinates; a `Lost` or `Won` outcome moves the room to `Ended` and emits a
`GameEnd` event; an Ended room rejects with `room ended`. -/
def applyGameOp (room : Room) (pid : String) (op : GOp) :
    Room × List ResponseModel :=
  match room.phase with
  | Phase.Ended => (room, [ResponseModel.InvalidRequest ("room ended")])
  | Phase.Lobby => (room, [ResponseModel.InvalidRequest ("game not started")])
  | Phase.InProgress =>
    if room.players.all fun q => !(q.user_id == pid) then
      (room, [ResponseModel.InvalidRequest ("not a participant")])
    else
      match room.board with
      | none => (room, [ResponseModel.InvalidRequest ("no board")])
      | some b =>
        match op with
        | GOp.Reveal row col =>
          if row < b.rows ∧ col < b.cols then
            match reveal b row col with
            | ⟨b2, cells, Outcome.Continue⟩ =>
                ({ room with board := some b2, steps := room.steps + 1 },
                 [ResponseModel.GameOpRes ⟨cells, [], Outcome.Continue⟩])
            | ⟨b2, cells, Outcome.Won⟩ =>
                ({ room with
                    board := some b2
                    steps := room.steps + 1
                    phase := Phase.Ended },
                 [ResponseModel.GameOpRes ⟨cells, [], Outcome.Won⟩,
                  ResponseModel.GameEnd true 0 0 (room.steps + 1)])
            | ⟨b2, cells, Outcome.Lost⟩ =>
                ({ room with
                    board := some b2
                    steps := room.steps + 1
                    phase := Phase.Ended },
                 [ResponseModel.GameOpRes ⟨cells, [], Outcome.Lost⟩,
                  ResponseModel.GameEnd false 0 0 (room.steps + 1)])
          else
            (room, [ResponseModel.InvalidRequest ("invalid move")])
        | GOp.Flag row col =>
          if row < b.rows ∧ col < b.cols then
            ({ room with
                board := some (toggle_flag b row col).1
                steps := room.steps + 1 },
             [ResponseModel.GameOpRes ⟨[], [(row, col)], Outcome.Continue⟩])
          else
            (room, [ResponseModel.InvalidRequest ("invalid move")])

/-- One operation as seen by a single room (the mine oracle travels with the
join that may start the game). -/
inductive RoomOp where
  | Join (pl : Player) (ms : Finset (Nat × Nat)) : RoomOp
  | Op (pid : String) (gop : GOp) : RoomOp

/-- Apply one operation to a room. -/
def applyRoomOp (room : Room) (op : RoomOp) : Room × List ResponseModel :=
  match op with
  | RoomOp.Join pl ms => applyJoin ms room pl
  | RoomOp.Op pid gop => applyGameOp room pid gop

/-- Apply a sequence of operations to a room, discarding the events. -/
def runOps (room : Room) (ops : List RoomOp) : Room :=
  ops.foldl (fun rm op => (applyRoomOp rm op).1) room

/-- Numeric order of the phases along the forward direction. -/
def phaseIdx : Phase → Nat
  | Phase.Lobby => 0
  | Phase.InProgress => 1
  | Phase.Ended => 2

/-- The process-wide registry: the map from room identifier to room. -/
structure Registry where
  rooms : List (String × Room)
deriving DecidableEq, Repr

/-- `lookup(room_id) -> Room reference or NotFound`. -/
def lookup (reg : Registry) (rid : String) : Option Room :=
  (reg.rooms.find? fun e => e.1 == rid).map fun e => e.2

/-- Replace the room stored under `rid`. -/
def updateRoom (reg : Registry) (rid : String) (room : Room) : Registry :=
  ⟨reg.rooms.map fun e => if e.1 == rid then (e.1, room) else e⟩

/-- The 5-character decimal string of `n % 100000`. -/
def pad5 (n : Nat) : String :=
  String.mk [(n / 10000 % 10).digitChar, (n / 1000 % 10).digitChar,
    (n / 100 % 10).digitChar, (n / 10 % 10).digitChar, (n % 10).digitChar]

/-- Modelled from the spec: the fresh-identifier generator of
`RoomRegistry.create` (the Rust implementation is not in the repository
snapshot).  It yields a short numeric string unused by any currently live
room: the first of `rooms.length + 1` candidate 5-digit strings that is not a
key of the registry (one always exists by pigeonhole while fewer than 100000
rooms are live). -/
def freshId (reg : Registry) : String :=
  (((List.range (reg.rooms.length + 1)).map pad5).find? fun s =>
    (lookup reg s).isNone).getD (pad5 0)

/-- Modelled from the spec: `create(config, initiating_player) -> room_id` of
the RoomRegistry (the Rust implementation is not in the repository snapshot).
Generates an identifier unique among live rooms, inserts a Lobby-phase room
whose players are exactly the initiator, and replies `InitRoom{room_id}`.
`cap` is the design-fixed room capacity. -/
def create (reg : Registry) (cfg : RoomConfig) (cap : Nat) (pl : Player) :
    Registry × String × List ResponseModel :=
  (⟨(freshId reg, ⟨cfg, cap, [pl], Phase.Lobby, none, 0⟩) :: reg.rooms⟩,
    freshId reg, [ResponseModel.InitRoom (freshId reg)])

/-- Modelled from the spec: the top-level dispatch of one decoded inbound
message (`none` models a `DecodeFailure`).  Resolves the target room,
delegates to the room state machine, and converts every failure into an
`InvalidRequest` event without touching any state. -/
def handle (cap : Nat) (ms : Finset (Nat × Nat)) (reg : Registry)
    (msg : Option Request) : Registry × List ResponseModel :=
  match msg with
  | none => (reg, [ResponseModel.InvalidRequest ("decode failure")])
  | some (Request.InitRoom cfg pl) =>
    ((create reg cfg cap pl).1, (create reg cfg cap pl).2.2)
  | some (Request.JoinRoom rid pl) =>
    match lookup reg rid with
    | none => (reg, [ResponseModel.InvalidRequest ("room not found")])
    | some room =>
      (updateRoom reg rid (applyJoin ms room pl).1, (applyJoin ms room pl).2)
  | some (Request.GameOp rid pid op) =>
    match lookup reg rid with
    | none => (reg, [ResponseModel.InvalidRequest ("room not found")])
    | some room =>
      (updateRoom reg rid (applyGameOp room pid op).1, (applyGameOp room pid op).2)

/-- Registry well-formedness: room identifiers are pairwise distinct. -/
def RegWf (reg : Registry) : Prop := (reg.rooms.map Prod.fst).Nodup

instance (reg : Registry) : Decidable (RegWf reg) := by
  unfold RegWf
  infer_instance

/-- The error-handling contract of the dispatch layer: a decode failure, an
unknown room, an ended room, a non-participant sender, and every other
rejection emit an `InvalidRequest` event and leave the registry — hence every
room's board and player list — exactly unchanged. -/
def RejectionBehaviour (cap : Nat) (ms : Finset (Nat × Nat)) (reg : Registry)
    (msg : Option Request) : Prop :=
  (handle cap ms reg none =
    (reg, [ResponseModel.InvalidRequest ("decode failure")])) ∧
  ((∃ e, ResponseModel.InvalidRequest e ∈ (handle cap ms reg msg).2) →
    (handle cap ms reg msg).1 = reg) ∧
  (∀ rid room pl pid op, lookup reg rid = some room → room.phase = Phase.Ended →
    handle cap ms reg (some (Request.JoinRoom rid pl)) =
      (reg, [ResponseModel.InvalidRequest ("room ended")]) ∧
    handle cap ms reg (some (Request.GameOp rid pid op)) =
      (reg, [ResponseModel.InvalidRequest ("room ended")])) ∧
  (∀ rid pl pid op, lookup reg rid = none →
    handle cap ms reg (some (Request.JoinRoom rid pl)) =
      (reg, [ResponseModel.InvalidRequest ("room not found")]) ∧
    handle cap ms reg (some (Request.GameOp rid pid op)) =
      (reg, [ResponseModel.InvalidRequest ("room not found")])) ∧
  (∀ rid room pid op, lookup reg rid = some room →
    room.phase = Phase.InProgress →
    (∀ q ∈ room.players, q.user_id ≠ pid) →
    handle cap ms reg (some (Request.GameOp rid pid op)) =
      (reg, [ResponseModel.InvalidRequest ("not a participant")]))

/-- A concrete one-room registry whose single room is in phase Ended. -/
def sampleRegistry : Registry :=
  ⟨[(("66666"), Room.mk ⟨2, 2, 1⟩ 2 [Player.mk ("u1") ("n1") ("i1")]
      Phase.Ended none 0)]⟩

/-- What the spec requires of `create`: a 5-character identifier distinct from
every live room's identifier, a fresh Lobby room holding exactly the
initiator, an `InitRoom{room_id}` reply, and a still well-formed registry. -/
def CreateBehaviour (reg : Registry) (cfg : RoomConfig) (cap : Nat)
    (pl : Player) : Prop :=
  ((create reg cfg cap pl).2.1).length = 5 ∧
  lookup reg (create reg cfg cap pl).2.1 = none ∧
  (create reg cfg cap pl).2.1 ∉ reg.rooms.map Prod.fst ∧
  lookup (create reg cfg cap pl).1 (create reg cfg cap pl).2.1 =
    some (Room.mk cfg cap [pl] Phase.Lobby none 0) ∧
  (create reg cfg cap pl).1.rooms =
    ((create reg cfg cap pl).2.1, Room.mk cfg cap [pl] Phase.Lobby none 0)
      :: reg.rooms ∧
  (create reg cfg cap pl).2.2 =
    [ResponseModel.InitRoom (create reg cfg cap pl).2.1] ∧
  RegWf (create reg cfg cap pl).1

/-- A minimal model of the JSON values exchanged on the wire. -/
inductive J where
  | str (s : String) : J
  | num (n : Nat) : J
  | bool (b : Bool) : J
  | arr (items : List J) : J
  | obj (fields : List (String × J)) : J

/-- Field lookup in a decoded object, first match by key. -/
def jfield (fields : List (String × J)) (key : String) : Option J :=
  match fields with
  | [] => none
  | f :: rest => if f.1 == key then some f.2 else jfield rest key

/-- Modelled from the spec: serialization of a `Player` (the Rust serde
implementation is not in the repository snapshot). -/
def encodePlayer (p : Player) : J :=
  J.obj [("user_id", J.str p.user_id), ("user_name", J.str p.user_name),
    ("user_icon", J.str p.user_icon)]

/-- Inverse of `encodePlayer`: read the three identity fields. -/
def decodePlayer (j : J) : Option Player :=
  match j with
  | J.obj fields =>
    match jfield fields ("user_id"), jfield fields ("user_name"),
        jfield fields ("user_icon") with
    | some (J.str uid), some (J.str uname), some (J.str uicon) =>
        some (Player.mk uid uname uicon)
    | _, _, _ => none
  | _ => none

/-- Serialization of a `RoomConfig`. -/
def encodeConfig (cfg : RoomConfig) : J :=
  J.obj [("cols", J.num cfg.cols), ("rows", J.num cfg.rows),
    ("mines", J.num cfg.mines)]

/-- Inverse of `encodeConfig`. -/
def decodeConfig (j : J) : Option RoomConfig :=
  match j with
  | J.obj fields =>
    match jfield fields ("cols"), jfield fields ("rows"),
        jfield fields ("mines") with
    | some (J.num cols), some (J.num rows), some (J.num mines) =>
        some (RoomConfig.mk cols rows mines)
    | _, _, _ => none
  | _ => none

/-- Serialization of a cell coordinate. -/
def encodePair (p : Nat × Nat) : J := J.arr [J.num p.1, J.num p.2]

/-- Inverse of `encodePair`. -/
def decodePair (j : J) : Option (Nat × Nat) :=
  match j with
  | J.arr [J.num a, J.num b] => some (a, b)
  | _ => none

/-- Serialization of an `Outcome`. -/
def encodeOutcome : Outcome → J
  | Outcome.Continue => J.str ("Continue")
  | Outcome.Won => J.str ("Won")
  | Outcome.Lost => J.str ("Lost")

/-- Inverse of `encodeOutcome`. -/
def decodeOutcome (j : J) : Option Outcome :=
  match j with
  | J.str s =>
    if s == ("Continue") then some Outcome.Continue
    else if s == ("Won") then some Outcome.Won
    else if s == ("Lost") then some Outcome.Lost
    else none
  | _ => none

/-- Serialization of an `OpResult`. -/
def encodeOpResult (o : OpResult) : J :=
  J.obj [("revealed_cells", J.arr (o.revealed_cells.map encodePair)),
    ("flags", J.arr (o.flags.map encodePair)),
    ("outcome", encodeOutcome o.outcome)]

/-- Assembling an `OpResult` from its decoded fields. -/
def decodeOpResultFields (rc fl : List J) (oj : J) : Option OpResult :=
  match rc.mapM decodePair, fl.mapM decodePair, decodeOutcome oj with
  | some rcells, some flags, some oc => some (OpResult.mk rcells flags oc)
  | _, _, _ => none

/-- Inverse of `encodeOpResult`. -/
def decodeOpResult (j : J) : Option OpResult :=
  match j with
  | J.obj fields =>
    match jfield fields ("revealed_cells"), jfield fields ("flags"),
        jfield fields ("outcome") with
    | some (J.arr rc), some (J.arr fl), some oj => decodeOpResultFields rc fl oj
    | _, _, _ => none
  | _ => none

/-- Modelled from the spec and the serde-tagged `ResponseModel` enum quoted in
the repository's test notes: every outbound variant serializes to a
self-describing object whose `type` field carries the variant name. -/
def encodeResponse : ResponseModel → J
  | ResponseModel.JoinRoom player =>
      J.obj [("type", J.str ("JoinRoom")), ("player", encodePlayer player)]
  | ResponseModel.InitRoom room_id =>
      J.obj [("type", J.str ("InitRoom")), ("room_id", J.str room_id)]
  | ResponseModel.GameStart players config =>
      J.obj [("type", J.str ("GameStart")),
        ("players", J.arr (players.map encodePlayer)),
        ("config", encodeConfig config)]
  | ResponseModel.GameOpRes op_res =>
      J.obj [("type", J.str ("GameOpRes")), ("op_res", encodeOpResult op_res)]
  | ResponseModel.GameEnd success scores duration steps =>
      J.obj [("type", J.str ("GameEnd")), ("success", J.bool success),
        ("scores", J.num scores), ("duration", J.num duration),
        ("steps", J.num steps)]
  | ResponseModel.InvalidRequest error =>
      J.obj [("type", J.str ("InvalidRequest")), ("error", J.str error)]

/-- Assembling a `GameStart` from its decoded fields. -/
def decodeGameStartFields (pjs : List J) (cj : J) : Option ResponseModel :=
  match pjs.mapM decodePlayer, decodeConfig cj with
  | some players, some cfg => some (ResponseModel.GameStart players cfg)
  | _, _ => none

/-- Inverse of `encodeResponse`: dispatch on the `type` tag field. -/
def decodeResponse (j : J) : Option ResponseModel :=
  match j with
  | J.obj fields =>
    match jfield fields ("type") with
    | some (J.str tag) =>
      if tag == ("JoinRoom") then
        match jfield fields ("player") with
        | some pj => (decodePlayer pj).map ResponseModel.JoinRoom
        | none => none
      else if tag == ("InitRoom") then
        match jfield fields ("room_id") with
        | some (J.str rid) => some (ResponseModel.InitRoom rid)
        | _ => none
      else if tag == ("GameStart") then
        match jfield fields ("players"), jfield fields ("config") with
        | some (J.arr pjs), some cj => decodeGameStartFields pjs cj
        | _, _ => none
      else if tag == ("GameOpRes") then
        match jfield fields ("op_res") with
        | some oj => (decodeOpResult oj).map ResponseModel.GameOpRes
        | none => none
      else if tag == ("GameEnd") then
        match jfield fields ("success"), jfield fields ("scores"),
            jfield fields ("duration"), jfield fields ("steps") with
        | some (J.bool success), some (J.num scores), some (J.num duration),
            some (J.num steps) =>
            some (ResponseModel.GameEnd success scores duration steps)
        | _, _, _, _ => none
      else if tag == ("InvalidRequest") then
        match jfield fields ("error") with
        | some (J.str e) => some (ResponseModel.InvalidRequest e)
        | _ => none
      else none
    | _ => none
  | _ => none

/-- The `type` tag of an encoded object. -/
def tagOf (j : J) : Option String :=
  match j with
  | J.obj fields =>
    match jfield fields ("type") with
    | some (J.str t) => some t
    | _ => none
  | _ => none

/-- The tag the protocol assigns to each outbound variant: its name. -/
def responseTag : ResponseModel → String
  | ResponseModel.JoinRoom _ => "JoinRoom"
  | ResponseModel.InitRoom _ => "InitRoom"
  | ResponseModel.GameStart _ _ => "GameStart"
  | ResponseModel.GameOpRes _ => "GameOpRes"
  | ResponseModel.GameEnd _ _ _ _ => "GameEnd"
  | ResponseModel.InvalidRequest _ => "InvalidRequest"

end Minesweeper

namespace PyServer

/-- A Python expression, restricted to the forms used in the body of the
`server` websocket handler of `src/python/server.py` (call arguments are
plain names there). -/
inductive PyExpr where
  | name (s : String) : PyExpr
  | call (f : PyExpr) (args : List String) : PyExpr
  | attr (e : PyExpr) (a : String) : PyExpr
  | awaitE (e : PyExpr) : PyExpr

/-- A Python statement of the handler body. -/
inductive PyStmt where
  | assign (x : String) (e : PyExpr) : PyStmt
  | exprStmt (e : PyExpr) : PyStmt

/-- The only error our fragment can raise: an unresolved name. -/
inductive PyError where
  | nameError (missing : String) : PyError
deriving DecidableEq, Repr

/-- Opaque runtime value: the fragment never inspects values. -/
inductive PyVal where
  | obj : PyVal
deriving DecidableEq, Repr

/-- Python name resolution over the accessible scope: an unbound name raises
`NameError`; calls, attribute access and `await` evaluate their parts in
order and otherwise yield an opaque value. -/
def evalExpr (env : List String) : PyExpr → Except PyError PyVal
  | PyExpr.name s =>
    if s ∈ env then Except.ok PyVal.obj else Except.error (PyError.nameError s)
  | PyExpr.call f args =>
    match evalExpr env f with
    | Except.error err => Except.error err
    | Except.ok _ =>
      match args.find? fun a => decide (a ∉ env) with
      | some a => Except.error (PyError.nameError a)
      | none => Except.ok PyVal.obj
  | PyExpr.attr e _ =>
    match evalExpr env e with
    | Except.error err => Except.error err
    | Except.ok _ => Except.ok PyVal.obj
  | PyExpr.awaitE e =>
    match evalExpr env e with
    | Except.error err => Except.error err
    | Except.ok _ => Except.ok PyVal.obj

/-- Sequential execution of the handler body: the first failing statement
aborts the handler with its error. -/
def execStmts (env : List String) : List PyStmt → Except PyError (List String)
  | [] => Except.ok env
  | PyStmt.assign x e :: rest =>
    match evalExpr env e with
    | Except.error err => Except.error err
    | Except.ok _ => execStmts (x :: env) rest
  | PyStmt.exprStmt e :: rest =>
    match evalExpr env e with
    | Except.error err => Except.error err
    | Except.ok _ => execStmts env rest

/-- The names defined at module level in `src/python/server.py`: its imports
(`argparse`, `os`, `Path`, `List`, `Optional`, `uvicorn`, the fastapi names,
`BackgroundTasks`, `HTMLResponse`, `RedirectResponse`) plus the module-level
`app` and the handler `server` itself.  `MPMInferService` is not among them
(and is no Python builtin either), since no statement of the module defines
or imports it. -/
def serverModuleGlobals : List String :=
  [("argparse"), ("os"), ("Path"), ("List"), ("Optional"), ("uvicorn"),
   ("APIRouter"), ("Body"), ("Depends"), ("FastAPI"), ("File"), ("Query"),
   ("UploadFile"), ("WebSocket"), ("BackgroundTasks"), ("HTMLResponse"),
   ("RedirectResponse"), ("app"), ("server")]

/-- The body of the `server` handler (`src/python/server.py`, lines 19-20):
`mpm_infer_service = MPMInferService()` followed by
`await mpm_infer_service.run(websocket, client_id)`. -/
def serverHandlerBody : List PyStmt :=
  [PyStmt.assign ("mpm_infer_service")
      (PyExpr.call (PyExpr.name ("MPMInferService")) []),
   PyStmt.exprStmt (PyExpr.awaitE (PyExpr.call
      (PyExpr.attr (PyExpr.name ("mpm_infer_service")) ("run"))
      [("websocket"), ("client_id")]))]

/-- Run the handler with its two parameters bound (the `client_id` query
parameter may hold any value or its default `None`; only the binding of the
name matters to name resolution). -/
def runServerHandler (client_id : Option String) : Except PyError (List String) :=
  execStmts (("websocket") :: ("client_id") :: serverModuleGlobals)
    serverHandlerBody

end PyServer

namespace Minesweeper

/-- Every neighbour returned by `neighbors` is in range. -/
theorem neighbors_mem_range {rows cols r c : Nat} {q : Nat × Nat}
    (hq : q ∈ neighbors rows cols r c) : q.1 < rows ∧ q.2 < cols := by
  unfold neighbors at hq
  rw [List.mem_filterMap] at hq
  obtain ⟨d, _, hd⟩ := hq
  by_cases h : 0 ≤ (r : Int) + d.1 ∧ (r : Int) + d.1 < (rows : Int) ∧
      0 ≤ (c : Int) + d.2 ∧ (c : Int) + d.2 < (cols : Int)
  · rw [if_pos h] at hd
    obtain ⟨h1, h2, h3, h4⟩ := h
    cases hd
    constructor
    · exact_mod_cast (Int.toNat_lt' (by omega)).mpr (by omega)
    · exact_mod_cast (Int.toNat_lt' (by omega)).mpr (by omega)
  · rw [if_neg h] at hd
    cases hd

/-- Reading an in-range cell of a generated board. -/
theorem getCell_generate (cfg : RoomConfig) (S : Finset (Nat × Nat)) {r c : Nat}
    (hr : r < cfg.rows) (hc : c < cfg.cols) :
    getCell (generate cfg S) r c =
      { is_mine := decide ((r, c) ∈ S)
        adjacent_mine_count :=
          ((neighbors cfg.rows cfg.cols r c).filter fun q => decide (q ∈ S)).length
        revealed := false
        flagged := false } := by
  have hcpos : 0 < cfg.cols := by omega
  have hidx : r * cfg.cols + c < cfg.rows * cfg.cols := by
    calc r * cfg.cols + c < r * cfg.cols + cfg.cols := by omega
    _ = (r + 1) * cfg.cols := by ring
    _ ≤ cfg.rows * cfg.cols := Nat.mul_le_mul_right _ (by omega)
  unfold getCell generate
  simp only
  rw [List.getD_eq_getElem _ _ (by simpa using hidx)]
  rw [List.getElem_map, List.getElem_range]
  have hdiv : (r * cfg.cols + c) / cfg.cols = r := by
    rw [mul_comm, Nat.mul_add_div hcpos, Nat.div_eq_of_lt hc, Nat.add_zero]
  have hmod : (r * cfg.cols + c) % cfg.cols = c := by
    rw [mul_comm, Nat.mul_add_mod, Nat.mod_eq_of_lt hc]
  rw [hdiv, hmod]

/-- Row-major index arithmetic for an in-range coordinate. -/
theorem coord_index {rows cols r c : Nat} (hr : r < rows) (hc : c < cols) :
    r * cols + c < rows * cols ∧ (r * cols + c) / cols = r ∧ (r * cols + c) % cols = c := by
  have hcpos : 0 < cols := by omega
  refine ⟨?_, ?_, ?_⟩
  · calc r * cols + c < r * cols + cols := by omega
    _ = (r + 1) * cols := by ring
    _ ≤ rows * cols := Nat.mul_le_mul_right _ (by omega)
  · rw [mul_comm, Nat.mul_add_div hcpos, Nat.div_eq_of_lt hc, Nat.add_zero]
  · rw [mul_comm, Nat.mul_add_mod, Nat.mod_eq_of_lt hc]

/-- Two pairs with equal components are equal. -/
theorem pair_ext {α β : Type} {p q : α × β} (h1 : p.1 = q.1) (h2 : p.2 = q.2) :
    p = q := by
  obtain ⟨a, b⟩ := p
  obtain ⟨a2, b2⟩ := q
  simp only at h1 h2
  rw [h1, h2]

/-- `List.countP` over `List.range` as a `Finset` cardinality. -/
theorem countP_range_eq_card (N : Nat) (q : Nat → Bool) :
    (List.range N).countP q = ((Finset.range N).filter fun i => q i = true).card := by
  induction N with
  | zero => simp
  | succ n ih =>
    rw [List.range_succ, List.countP_append, Finset.range_succ, Finset.filter_insert,
      List.countP_cons, List.countP_nil]
    split <;> simp_all [Finset.card_insert_of_not_mem]

/-- Counting the in-range coordinates that lie in `S` recovers `S.card`. -/
theorem card_filter_coords (rows cols : Nat) (S : Finset (Nat × Nat))
    (hsub : ∀ p ∈ S, p.1 < rows ∧ p.2 < cols) :
    ((Finset.range (rows * cols)).filter fun i => (i / cols, i % cols) ∈ S).card
      = S.card := by
  refine Finset.card_bij' (fun i _ => (i / cols, i % cols)) (fun p _ => p.1 * cols + p.2)
    ?_ ?_ ?_ ?_
  · intro a ha
    exact (Finset.mem_filter.mp ha).2
  · intro p hp
    obtain ⟨h1, h2⟩ := hsub p hp
    obtain ⟨hlt, hdiv, hmod⟩ := coord_index h1 h2
    rw [Finset.mem_filter]
    refine ⟨Finset.mem_range.mpr hlt, ?_⟩
    rw [hdiv, hmod]
    exact hp
  · intro a ha
    have hmem := Finset.mem_range.mp (Finset.mem_filter.mp ha).1
    have hcpos : 0 < cols := by
      rcases Nat.eq_zero_or_pos cols with h | h
      · rw [h, mul_zero] at hmem
        omega
      · exact h
    simp only
    rw [mul_comm, Nat.div_add_mod]
  · intro p hp
    obtain ⟨h1, h2⟩ := hsub p hp
    obtain ⟨hlt, hdiv, hmod⟩ := coord_index h1 h2
    simp only
    rw [hdiv, hmod]

/-- The generated board contains exactly `S.card` mined cells. -/
theorem countP_mines_generate (cfg : RoomConfig) (S : Finset (Nat × Nat))
    (hsub : ∀ p ∈ S, p.1 < cfg.rows ∧ p.2 < cfg.cols) :
    (generate cfg S).cells.countP (fun cell => cell.is_mine) = S.card := by
  have key : (generate cfg S).cells.countP (fun cell => cell.is_mine)
      = (List.range (cfg.rows * cfg.cols)).countP
          fun i => decide ((i / cfg.cols, i % cfg.cols) ∈ S) := by
    unfold generate
    simp only
    rw [List.countP_eq_length_filter, List.filter_map, List.length_map,
      ← List.countP_eq_length_filter]
    apply List.countP_congr
    intro a _
    rfl
  rw [key, countP_range_eq_card, ← card_filter_coords cfg.rows cfg.cols S hsub]
  congr 1
  apply Finset.filter_congr
  intro i _
  simp

/-- C2: for every configuration `(cols, rows, mines)` with `0 < mines < cols*rows`,
`GameEngine.generate` returns a `rows × cols` board with exactly `mines` mined
cells, and every cell's `adjacent_mine_count` equals the number of mined cells
among its up-to-8 neighbours.  (The uniformly random mine choice is modelled by
the oracle `S`, constrained to hold `mines` in-range positions.) -/
theorem generate_spec (cfg : RoomConfig) (S : Finset (Nat × Nat))
    (hmlo : 0 < cfg.mines) (hmhi : cfg.mines < cfg.cols * cfg.rows)
    (hsub : ∀ p ∈ S, p.1 < cfg.rows ∧ p.2 < cfg.cols)
    (hcard : S.card = cfg.mines) :
    (generate cfg S).rows = cfg.rows ∧
    (generate cfg S).cols = cfg.cols ∧
    (generate cfg S).Wf ∧
    (generate cfg S).cells.countP (fun cell => cell.is_mine) = cfg.mines ∧
    ∀ r c, r < cfg.rows → c < cfg.cols →
      (getCell (generate cfg S) r c).adjacent_mine_count
        = ((neighbors cfg.rows cfg.cols r c).filter
            fun q => (getCell (generate cfg S) q.1 q.2).is_mine).length := by
  refine ⟨rfl, rfl, ?_, ?_, ?_⟩
  · unfold Board.Wf generate
    simp
  · rw [countP_mines_generate cfg S hsub, hcard]
  · intro r c hr hc
    rw [getCell_generate cfg S hr hc]
    simp only
    congr 1
    apply List.filter_congr
    intro q hq
    obtain ⟨h1, h2⟩ := neighbors_mem_range hq
    rw [getCell_generate cfg S h1 h2]

/-- Witness for C2 at a concrete configuration: a 2×2 board with one mine. -/
theorem generate_spec_witness :
    (0 < (1 : Nat)) ∧ ((1 : Nat) < 2 * 2) ∧
    (∀ p ∈ ({(0, 0)} : Finset (Nat × Nat)), p.1 < 2 ∧ p.2 < 2) ∧
    (({(0, 0)} : Finset (Nat × Nat)).card = 1) ∧
    ((generate ⟨2, 2, 1⟩ {(0, 0)}).rows = 2 ∧
     (generate ⟨2, 2, 1⟩ {(0, 0)}).cols = 2 ∧
     (generate ⟨2, 2, 1⟩ {(0, 0)}).Wf ∧
     (generate ⟨2, 2, 1⟩ {(0, 0)}).cells.countP (fun cell => cell.is_mine) = 1 ∧
     ∀ r c, r < 2 → c < 2 →
       (getCell (generate ⟨2, 2, 1⟩ {(0, 0)}) r c).adjacent_mine_count
         = ((neighbors 2 2 r c).filter
             fun q => (getCell (generate ⟨2, 2, 1⟩ {(0, 0)}) q.1 q.2).is_mine).length) :=
  ⟨by decide, by decide, by decide, by decide,
    generate_spec ⟨2, 2, 1⟩ {(0, 0)} (by decide) (by decide) (by decide) (by decide)⟩

/-- `setCell` preserves the dimensions and well-formedness of the board. -/
theorem setCell_dims (b : Board) (r c : Nat) (cell : Cell) :
    (setCell b r c cell).rows = b.rows ∧ (setCell b r c cell).cols = b.cols ∧
    (b.Wf → (setCell b r c cell).Wf) := by
  refine ⟨rfl, rfl, ?_⟩
  intro h
  unfold Board.Wf setCell at *
  simpa using h

/-- Reading after `setCell` at in-range coordinates. -/
theorem getCell_setCell (b : Board) {r c : Nat} (hwf : b.Wf)
    (hr : r < b.rows) (hc : c < b.cols) (cell : Cell) {x y : Nat}
    (hx : x < b.rows) (hy : y < b.cols) :
    getCell (setCell b r c cell) x y =
      if x = r ∧ y = c then cell else getCell b x y := by
  obtain ⟨hltr, hdivr, hmodr⟩ := coord_index hr hc
  obtain ⟨hltx, hdivx, hmodx⟩ := coord_index hx hy
  unfold getCell setCell
  simp only
  by_cases hxy : x = r ∧ y = c
  · obtain ⟨rfl, rfl⟩ := hxy
    rw [if_pos ⟨rfl, rfl⟩]
    rw [List.getD_eq_getElem?_getD, List.getElem?_set_self, Option.getD_some]
    rw [hwf]
    exact hltx
  · rw [if_neg hxy]
    have hne : x * b.cols + y ≠ r * b.cols + c := by
      intro heq
      apply hxy
      constructor
      · rw [← hdivx, heq, hdivr]
      · rw [← hmodx, heq, hmodr]
    rw [List.getD_eq_getElem?_getD, List.getD_eq_getElem?_getD,
      List.getElem?_set_ne (Ne.symm hne)]

/-- `countP` after replacing one element, stated additively. -/
theorem countP_set_add {α : Type} (p : α → Bool) :
    ∀ (l : List α) (i : Nat) (a : α) (h : i < l.length),
    (l.set i a).countP p + (if p (l.get ⟨i, h⟩) then 1 else 0)
      = l.countP p + (if p a then 1 else 0)
  | [], i, a, h => by simp at h
  | x :: xs, 0, a, h => by
    simp only [List.set, List.countP_cons, List.get]
    omega
  | x :: xs, i + 1, a, h => by
    simp only [List.set, List.countP_cons, List.get]
    have := countP_set_add p xs i a (by simpa using h)
    omega

/-- Revealing a fresh in-range cell decreases `unrevealedCount` by one. -/
theorem unrevealedCount_setCell (b : Board) {r c : Nat} (hwf : b.Wf)
    (hr : r < b.rows) (hc : c < b.cols)
    (hfresh : (getCell b r c).revealed = false) (cell : Cell)
    (hcell : cell.revealed = true) :
    unrevealedCount (setCell b r c cell) + 1 = unrevealedCount b := by
  have hidx : r * b.cols + c < b.cells.length := by
    rw [hwf]
    exact (coord_index hr hc).1
  have hget : b.cells.get ⟨r * b.cols + c, hidx⟩ = getCell b r c := by
    unfold getCell
    rw [List.getD_eq_getElem?_getD, List.getElem?_eq_getElem hidx, Option.getD_some]
    rfl
  have h := countP_set_add (fun cl => !cl.revealed) b.cells (r * b.cols + c) cell hidx
  rw [hget] at h
  unfold unrevealedCount setCell
  simp only
  rw [hfresh, hcell] at h
  simpa using h

/-- `neighbors` returns at most 8 cells. -/
theorem neighbors_length_le (rows cols r c : Nat) :
    (neighbors rows cols r c).length ≤ 8 := by
  unfold neighbors
  calc (neighborOffsets.filterMap _).length ≤ neighborOffsets.length :=
        List.length_filterMap_le _ _
  _ = 8 := rfl

/-- With enough fuel the flood-fill worklist loop always terminates
(returns `some`). -/
theorem revealFrom_isSome : ∀ (fuel : Nat) (b : Board) (wl : List (Nat × Nat)),
    b.Wf → (∀ p ∈ wl, inRange b p) →
    9 * unrevealedCount b + wl.length < fuel →
    (revealFrom fuel b wl).isSome
  | 0, b, wl, _, _, hfuel => by omega
  | fuel + 1, b, [], _, _, _ => by
    unfold revealFrom
    rfl
  | fuel + 1, b, p :: rest, hwf, hwl, hfuel => by
    unfold revealFrom
    simp only
    by_cases hskip : ((getCell b p.1 p.2).revealed || (getCell b p.1 p.2).flagged) = true
    · rw [if_pos hskip]
      apply revealFrom_isSome fuel b rest hwf
      · intro q hq
        exact hwl q (List.mem_cons_of_mem _ hq)
      · simp only [List.length_cons] at hfuel
        omega
    · rw [if_neg hskip]
      simp only [Bool.or_eq_true, not_or, Bool.not_eq_true] at hskip
      obtain ⟨hp1, hp2⟩ := hwl p (List.mem_cons_self _ _)
      have hdims := setCell_dims b p.1 p.2 { getCell b p.1 p.2 with revealed := true }
      have hcnt := unrevealedCount_setCell b hwf hp1 hp2 hskip.1
        { getCell b p.1 p.2 with revealed := true } rfl
      have hrec := revealFrom_isSome fuel
        (setCell b p.1 p.2 { getCell b p.1 p.2 with revealed := true })
        ((if (getCell b p.1 p.2).adjacent_mine_count = 0
            then neighbors b.rows b.cols p.1 p.2 else []) ++ rest)
        (hdims.2.2 hwf)
        (by
          intro q hq
          rw [List.mem_append] at hq
          unfold inRange
          rw [hdims.1, hdims.2.1]
          rcases hq with hq | hq
          · by_cases hz : (getCell b p.1 p.2).adjacent_mine_count = 0
            · rw [if_pos hz] at hq
              exact neighbors_mem_range hq
            · rw [if_neg hz] at hq
              simp at hq
          · exact hwl q (List.mem_cons_of_mem _ hq))
        (by
          have hlen : ((if (getCell b p.1 p.2).adjacent_mine_count = 0
              then neighbors b.rows b.cols p.1 p.2 else []) ++ rest).length
              ≤ 8 + rest.length := by
            rw [List.length_append]
            have := neighbors_length_le b.rows b.cols p.1 p.2
            by_cases hz : (getCell b p.1 p.2).adjacent_mine_count = 0
            · rw [if_pos hz]
              omega
            · rw [if_neg hz]
              simp only [List.length_nil]
              omega
          simp only [List.length_cons] at hfuel
          omega)
      obtain ⟨res, hres⟩ := Option.isSome_iff_exists.mp hrec
      rw [hres]
      rfl

/-- The flood-fill loop satisfies its post-condition. -/
theorem revealFrom_sound : ∀ (fuel : Nat) (b : Board) (wl : List (Nat × Nat))
    (b' : Board) (s : List (Nat × Nat)),
    b.Wf → (∀ p ∈ wl, inRange b p) →
    revealFrom fuel b wl = some (b', s) → FloodResult b wl b' s
  | 0, b, wl, b', s, _, _, heq => by
    unfold revealFrom at heq
    cases heq
  | fuel + 1, b, [], b', s, hwf, _, heq => by
    unfold revealFrom at heq
    obtain ⟨rfl, rfl⟩ : b = b' ∧ [] = s := by
      cases heq
      exact ⟨rfl, rfl⟩
    refine ⟨rfl, rfl, hwf, List.nodup_nil, ?_, ?_, ?_, ?_⟩
    · intro p hp
      cases hp
    · intro x y hx hy
      simp
    · intro p hp
      cases hp
    · intro p hp
      cases hp
  | fuel + 1, b, p :: rest, b', s, hwf, hwl, heq => by
    unfold revealFrom at heq
    simp only at heq
    obtain ⟨hp1, hp2⟩ := hwl p (List.mem_cons_self _ _)
    by_cases hskip : ((getCell b p.1 p.2).revealed || (getCell b p.1 p.2).flagged) = true
    · rw [if_pos hskip] at heq
      have hrest : ∀ q ∈ rest, inRange b q := fun q hq =>
        hwl q (List.mem_cons_of_mem _ hq)
      obtain ⟨h1, h2, h3, h4, h5, h6, h7, h8⟩ :=
        revealFrom_sound fuel b rest b' s hwf hrest heq
      refine ⟨h1, h2, h3, h4, h5, h6, ?_, h8⟩
      intro q hq
      rcases List.mem_cons.mp hq with rfl | hq
      · have hpt := h6 q.1 q.2 hp1 hp2
        by_cases hmem : (q.1, q.2) ∈ s
        · rw [if_pos hmem] at hpt
          left
          rw [hpt]
        · rw [if_neg hmem] at hpt
          rw [hpt]
          simpa using hskip
      · exact h7 q hq
    · rw [if_neg hskip] at heq
      rw [Bool.or_eq_true, not_or, Bool.not_eq_true, Bool.not_eq_true] at hskip
      obtain ⟨hfr, hfl⟩ := hskip
      set cell := getCell b p.1 p.2 with hcell
      set b1 := setCell b p.1 p.2 { cell with revealed := true } with hb1
      set enq := (if cell.adjacent_mine_count = 0
          then neighbors b.rows b.cols p.1 p.2 else []) ++ rest with henq
      have hb1rows : b1.rows = b.rows := rfl
      have hb1cols : b1.cols = b.cols := rfl
      have hb1wf : b1.Wf := (setCell_dims b p.1 p.2 _).2.2 hwf
      have hb1get : ∀ x y, x < b.rows → y < b.cols →
          getCell b1 x y =
            if x = p.1 ∧ y = p.2 then { cell with revealed := true }
            else getCell b x y := by
        intro x y hx hy
        exact getCell_setCell b hwf hp1 hp2 _ hx hy
      have henqrange : ∀ q ∈ enq, inRange b1 q := by
        intro q hq
        rw [henq, List.mem_append] at hq
        unfold inRange
        rw [hb1rows, hb1cols]
        rcases hq with hq | hq
        · by_cases hz : cell.adjacent_mine_count = 0
          · rw [if_pos hz] at hq
            exact neighbors_mem_range hq
          · rw [if_neg hz] at hq
            cases hq
        · exact hwl q (List.mem_cons_of_mem _ hq)
      cases hrec : revealFrom fuel b1 enq with
      | none =>
        rw [hrec] at heq
        cases heq
      | some res =>
        obtain ⟨b2, s'⟩ := res
        rw [hrec] at heq
        have heq2 : some (b2, p :: s') = some (b', s) := heq
        have hbs : b2 = b' ∧ p :: s' = s := by
          cases heq2
          exact ⟨rfl, rfl⟩
        obtain ⟨rfl, rfl⟩ := hbs
        obtain ⟨i1, i2, i3, i4, i5, i6, i7, i8⟩ :=
          revealFrom_sound fuel b1 enq b2 s' hb1wf henqrange hrec
        have hpnots : p ∉ s' := by
          intro hmem
          have := (i5 p hmem).2.1
          rw [hb1get p.1 p.2 hp1 hp2, if_pos ⟨rfl, rfl⟩] at this
          cases this
        have hpoint : ∀ x y, x < b.rows → y < b.cols →
            getCell b2 x y =
              if (x, y) ∈ p :: s' then { getCell b x y with revealed := true }
              else getCell b x y := by
          intro x y hx hy
          have hi6 := i6 x y (by rw [hb1rows]; exact hx) (by rw [hb1cols]; exact hy)
          by_cases hhead : (x, y) = p
          · have hnots : (x, y) ∉ s' := by
              rw [hhead]
              exact hpnots
            have hx1 : x = p.1 := by rw [← hhead]
            have hy1 : y = p.2 := by rw [← hhead]
            rw [if_pos (List.mem_cons.mpr (Or.inl hhead))]
            rw [if_neg hnots] at hi6
            rw [hi6, hb1get x y hx hy, if_pos ⟨hx1, hy1⟩, hcell]
            rw [hx1, hy1]
          · have hne2 : ¬(x = p.1 ∧ y = p.2) := fun hc2 => hhead (pair_ext hc2.1 hc2.2)
            rw [hb1get x y hx hy, if_neg hne2] at hi6
            by_cases hmem : (x, y) ∈ s'
            · rw [if_pos hmem] at hi6
              rw [if_pos (List.mem_cons.mpr (Or.inr hmem))]
              exact hi6
            · have hnotc : (x, y) ∉ p :: s' := by
                intro hc2
                rcases List.mem_cons.mp hc2 with hc2 | hc2
                · exact hhead hc2
                · exact hmem hc2
              rw [if_neg hmem] at hi6
              rw [if_neg hnotc]
              exact hi6
        refine ⟨i1.trans hb1rows, i2.trans hb1cols, i3, ?_, ?_, hpoint, ?_, ?_⟩
        · exact List.nodup_cons.mpr ⟨hpnots, i4⟩
        · intro q hq
          rcases List.mem_cons.mp hq with rfl | hq
          · exact ⟨⟨hp1, hp2⟩, hfr, hfl⟩
          · obtain ⟨hqr, hqf⟩ := i5 q hq
            have hqrange : inRange b q := by
              unfold inRange at hqr ⊢
              rw [hb1rows, hb1cols] at hqr
              exact hqr
            refine ⟨hqrange, ?_⟩
            have hqne : ¬(q.1 = p.1 ∧ q.2 = p.2) := by
              intro hc2
              apply hpnots
              have hqp : q = p := pair_ext hc2.1 hc2.2
              rw [← hqp]
              exact hq
            unfold freshCell at hqf ⊢
            rw [hb1get q.1 q.2 hqrange.1 hqrange.2, if_neg hqne] at hqf
            exact hqf
        · intro q hq
          rcases List.mem_cons.mp hq with heqq | hq
          · rw [heqq]
            left
            have hpt := hpoint p.1 p.2 hp1 hp2
            rw [if_pos (List.mem_cons.mpr (Or.inl rfl))] at hpt
            rw [hpt]
          · apply i7
            rw [henq, List.mem_append]
            right
            exact hq
        · intro q hq hz nb hnb
          rcases List.mem_cons.mp hq with heqq | hq
          · rw [heqq] at hz hnb
            apply i7
            rw [henq, List.mem_append]
            left
            rw [hcell, if_pos hz]
            exact hnb
          · have hqrange : inRange b q := by
              have hir := (i5 q hq).1
              unfold inRange at hir ⊢
              rw [hb1rows, hb1cols] at hir
              exact hir
            have hqne : ¬(q.1 = p.1 ∧ q.2 = p.2) := by
              intro hc2
              apply hpnots
              have hqp : q = p := pair_ext hc2.1 hc2.2
              rw [← hqp]
              exact hq
            have hz1 : (getCell b1 q.1 q.2).adjacent_mine_count = 0 := by
              rw [hb1get q.1 q.2 hqrange.1 hqrange.2, if_neg hqne]
              exact hz
            exact i8 q hq hz1 nb hnb

/-- Minimality of the flood fill: every predicate that holds on the initial
worklist and is closed under stepping to the neighbours of a fresh
zero-adjacency cell holds on every cell the flood fill reveals. -/
theorem revealFrom_reach : ∀ (fuel : Nat) (b : Board) (wl : List (Nat × Nat))
    (b' : Board) (s : List (Nat × Nat)) (R : Nat × Nat → Prop),
    b.Wf → (∀ p ∈ wl, inRange b p) →
    revealFrom fuel b wl = some (b', s) →
    (∀ q ∈ wl, R q) →
    (∀ p, R p → inRange b p → freshCell b p →
       (getCell b p.1 p.2).adjacent_mine_count = 0 →
       ∀ q ∈ neighbors b.rows b.cols p.1 p.2, R q) →
    ∀ p ∈ s, R p
  | 0, b, wl, b', s, R, _, _, heq, _, _ => by
    unfold revealFrom at heq
    cases heq
  | fuel + 1, b, [], b', s, R, hwf, _, heq, _, _ => by
    unfold revealFrom at heq
    have hs : ([] : List (Nat × Nat)) = s := by
      cases heq
      rfl
    intro p hp
    rw [← hs] at hp
    cases hp
  | fuel + 1, b, p :: rest, b', s, R, hwf, hwl, heq, hR, hclose => by
    unfold revealFrom at heq
    simp only at heq
    obtain ⟨hp1, hp2⟩ := hwl p (List.mem_cons_self _ _)
    by_cases hskip : ((getCell b p.1 p.2).revealed || (getCell b p.1 p.2).flagged) = true
    · rw [if_pos hskip] at heq
      exact revealFrom_reach fuel b rest b' s R hwf
        (fun q hq => hwl q (List.mem_cons_of_mem _ hq)) heq
        (fun q hq => hR q (List.mem_cons_of_mem _ hq)) hclose
    · rw [if_neg hskip] at heq
      rw [Bool.or_eq_true, not_or, Bool.not_eq_true, Bool.not_eq_true] at hskip
      obtain ⟨hfr, hfl⟩ := hskip
      set cell := getCell b p.1 p.2 with hcell
      set b1 := setCell b p.1 p.2 { cell with revealed := true } with hb1
      set enq := (if cell.adjacent_mine_count = 0
          then neighbors b.rows b.cols p.1 p.2 else []) ++ rest with henq
      have hb1wf : b1.Wf := (setCell_dims b p.1 p.2 _).2.2 hwf
      have hb1get : ∀ x y, x < b.rows → y < b.cols →
          getCell b1 x y =
            if x = p.1 ∧ y = p.2 then { cell with revealed := true }
            else getCell b x y := by
        intro x y hx hy
        exact getCell_setCell b hwf hp1 hp2 _ hx hy
      have henqrange : ∀ q ∈ enq, inRange b1 q := by
        intro q hq
        rw [henq, List.mem_append] at hq
        unfold inRange
        rcases hq with hq | hq
        · by_cases hz : cell.adjacent_mine_count = 0
          · rw [if_pos hz] at hq
            exact neighbors_mem_range hq
          · rw [if_neg hz] at hq
            cases hq
        · exact hwl q (List.mem_cons_of_mem _ hq)
      cases hrec : revealFrom fuel b1 enq with
      | none =>
        rw [hrec] at heq
        cases heq
      | some res =>
        obtain ⟨b2, s'⟩ := res
        rw [hrec] at heq
        have heq2 : some (b2, p :: s') = some (b', s) := heq
        have hbs : b2 = b' ∧ p :: s' = s := by
          cases heq2
          exact ⟨rfl, rfl⟩
        obtain ⟨rfl, rfl⟩ := hbs
        have henqR : ∀ q ∈ enq, R q := by
          intro q hq
          rw [henq, List.mem_append] at hq
          rcases hq with hq | hq
          · by_cases hz : cell.adjacent_mine_count = 0
            · rw [if_pos hz] at hq
              exact hclose p (hR p (List.mem_cons_self _ _)) ⟨hp1, hp2⟩ ⟨hfr, hfl⟩ hz q hq
            · rw [if_neg hz] at hq
              cases hq
          · exact hR q (List.mem_cons_of_mem _ hq)
        have hclose1 : ∀ q, R q → inRange b1 q → freshCell b1 q →
            (getCell b1 q.1 q.2).adjacent_mine_count = 0 →
            ∀ nb ∈ neighbors b1.rows b1.cols q.1 q.2, R nb := by
          intro q hRq hqr hqf hqz nb hnb
          have hqrange : inRange b q := hqr
          have hqne : ¬(q.1 = p.1 ∧ q.2 = p.2) := by
            intro hc2
            have := hqf.1
            rw [hb1get q.1 q.2 hqrange.1 hqrange.2, if_pos hc2] at this
            cases this
          have hqfb : freshCell b q := by
            unfold freshCell at hqf ⊢
            rw [hb1get q.1 q.2 hqrange.1 hqrange.2, if_neg hqne] at hqf
            exact hqf
          have hqzb : (getCell b q.1 q.2).adjacent_mine_count = 0 := by
            rw [hb1get q.1 q.2 hqrange.1 hqrange.2, if_neg hqne] at hqz
            exact hqz
          exact hclose q hRq hqrange hqfb hqzb nb hnb
        intro q hq
        rcases List.mem_cons.mp hq with heqq | hq
        · rw [heqq]
          exact hR p (List.mem_cons_self _ _)
        · exact revealFrom_reach fuel b1 enq b2 s' R hb1wf henqrange hrec henqR hclose1 q hq

/-- `allSafeRevealed` holds exactly when every in-range non-mine cell is
revealed. -/
theorem allSafeRevealed_iff (b : Board) (hwf : b.Wf) :
    allSafeRevealed b = true ↔
      ∀ x y, x < b.rows → y < b.cols →
        (getCell b x y).is_mine = false → (getCell b x y).revealed = true := by
  unfold allSafeRevealed
  rw [List.all_eq_true]
  constructor
  · intro h x y hx hy hmine
    obtain ⟨hlt, _, _⟩ := coord_index hx hy
    have hidx : x * b.cols + y < b.cells.length := by
      rw [hwf]
      exact hlt
    have hget : getCell b x y = b.cells.get ⟨x * b.cols + y, hidx⟩ := by
      unfold getCell
      rw [List.getD_eq_getElem?_getD, List.getElem?_eq_getElem hidx, Option.getD_some]
      rfl
    have := h _ (b.cells.get_mem (x * b.cols + y) hidx)
    rw [← hget] at this
    rw [Bool.or_eq_true] at this
    rcases this with this | this
    · rw [hmine] at this
      cases this
    · exact this
  · intro h cl hcl
    obtain ⟨i, hcli⟩ := List.mem_iff_get.mp hcl
    have hilen : (i : Nat) < b.rows * b.cols := by
      rw [← hwf]
      exact i.2
    have hcpos : 0 < b.cols := by
      rcases Nat.eq_zero_or_pos b.cols with hcz | hcz
      · rw [hcz, mul_zero] at hilen
        omega
      · exact hcz
    have hx : (i : Nat) / b.cols < b.rows := Nat.div_lt_of_lt_mul (by
      rw [mul_comm] at hilen
      exact hilen)
    have hy : (i : Nat) % b.cols < b.cols := Nat.mod_lt _ hcpos
    have hgi : getCell b ((i : Nat) / b.cols) ((i : Nat) % b.cols) = cl := by
      unfold getCell
      have hidx2 : (i : Nat) / b.cols * b.cols + (i : Nat) % b.cols = (i : Nat) := by
        rw [mul_comm]
        exact Nat.div_add_mod _ _
      rw [hidx2, List.getD_eq_getElem?_getD, List.getElem?_eq_getElem i.2,
        Option.getD_some, ← hcli]
      rfl
    have hsp := h _ _ hx hy
    rw [hgi] at hsp
    cases hmine : cl.is_mine
    · rw [hsp hmine]
      simp
    · simp

/-- A duplicate-free list whose members all equal `a`, with `a` a member, is
the singleton `[a]`. -/
theorem eq_singleton_of_forall_eq {α : Type} {a : α} {l : List α}
    (hmem : a ∈ l) (hall : ∀ x ∈ l, x = a) (hnd : l.Nodup) : l = [a] := by
  cases l with
  | nil => cases hmem
  | cons x t =>
    have hx : x = a := hall x (List.mem_cons_self _ _)
    subst hx
    have ht : t = [] := by
      apply List.eq_nil_iff_forall_not_mem.mpr
      intro y hy
      have hya : y = x := hall y (List.mem_cons_of_mem _ hy)
      subst hya
      exact (List.nodup_cons.mp hnd).1 hy
    rw [ht]

/-- C1: on every well-formed board and in-range coordinate, `reveal` behaves
as specified: no-op on revealed/flagged targets, mark-and-`Lost` on mines,
otherwise flood-fill of the zero-adjacency region, reporting the full set of
newly revealed cells and a `Won` flag exactly when every non-mine cell of the
resulting board is revealed. -/
theorem reveal_spec (b : Board) (r c : Nat) (hwf : b.Wf)
    (hr : r < b.rows) (hc : c < b.cols) : RevealBehaviour b r c := by
  unfold RevealBehaviour
  refine ⟨?_, ?_, ?_⟩
  · intro h
    have hb : ((getCell b r c).revealed || (getCell b r c).flagged) = true := by
      rcases h with h | h
      · rw [h]
        simp
      · rw [h]
        simp
    unfold reveal
    rw [if_pos hb]
  · intro h1 h2 h3
    have hb : ¬(((getCell b r c).revealed || (getCell b r c).flagged) = true) := by
      rw [h1, h2]
      simp
    unfold reveal
    rw [if_neg hb, if_pos h3]
  · intro h1 h2 h3
    have hb : ¬(((getCell b r c).revealed || (getCell b r c).flagged) = true) := by
      rw [h1, h2]
      simp
    have hb2 : ¬((getCell b r c).is_mine = true) := by
      rw [h3]
      simp
    have hwl : ∀ p ∈ [(r, c)], inRange b p := by
      intro p hp
      rcases List.mem_cons.mp hp with heqq | hp
      · rw [heqq]
        exact ⟨hr, hc⟩
      · cases hp
    have hfuel : 9 * unrevealedCount b + ([(r, c)] : List (Nat × Nat)).length
        < 9 * b.cells.length + 2 := by
      have hle : unrevealedCount b ≤ b.cells.length := List.countP_le_length _
      simp only [List.length_cons, List.length_nil]
      omega
    have hsome := revealFrom_isSome (9 * b.cells.length + 2) b [(r, c)] hwf hwl hfuel
    obtain ⟨res, hres⟩ := Option.isSome_iff_exists.mp hsome
    obtain ⟨b2, s⟩ := res
    have hrev : reveal b r c =
        ⟨b2, s, if allSafeRevealed b2 then Outcome.Won else Outcome.Continue⟩ := by
      unfold reveal
      rw [if_neg hb, if_neg hb2, hres]
    obtain ⟨f1, f2, f3, f4, f5, f6, f7, f8⟩ :=
      revealFrom_sound (9 * b.cells.length + 2) b [(r, c)] b2 s hwf hwl hres
    have hmemrc : (r, c) ∈ s := by
      by_cases hmem : (r, c) ∈ s
      · exact hmem
      · exfalso
        have hpt := f6 r c hr hc
        rw [if_neg hmem] at hpt
        rcases f7 (r, c) (List.mem_cons_self _ _) with hcon | hcon
        · rw [hpt] at hcon
          rw [h1] at hcon
          cases hcon
        · rw [hpt] at hcon
          rw [h2] at hcon
          cases hcon
    have hiff := allSafeRevealed_iff b2 f3
    rw [f1, f2] at hiff
    rw [hrev]
    simp only
    refine ⟨hmemrc, f1, f2, f3, f4, f5, f6, ?_, ?_, ?_, ?_⟩
    · intro hnz
      apply eq_singleton_of_forall_eq hmemrc ?_ f4
      have hreach := revealFrom_reach (9 * b.cells.length + 2) b [(r, c)] b2 s
        (fun q => q = (r, c)) hwf hwl hres
        (by
          intro q hq
          rcases List.mem_cons.mp hq with heqq | hq
          · exact heqq
          · cases hq)
        (by
          intro p hp _ _ hz nb _
          exfalso
          apply hnz
          rw [hp] at hz
          exact hz)
      exact hreach
    · intro p hp hz q hq hqfresh
      by_cases hmem : q ∈ s
      · exact hmem
      · exfalso
        obtain ⟨hq1, hq2⟩ := neighbors_mem_range hq
        have hpt := f6 q.1 q.2 hq1 hq2
        rw [if_neg (by
          intro hc2
          apply hmem
          have : (q.1, q.2) = q := pair_ext rfl rfl
          rw [← this]
          exact hc2)] at hpt
        rcases f8 p hp hz q hq with hcon | hcon
        · rw [hpt, hqfresh.1] at hcon
          cases hcon
        · rw [hpt, hqfresh.2] at hcon
          cases hcon
    · by_cases hAS : allSafeRevealed b2 = true
      · rw [if_pos hAS]
        exact ⟨fun _ => hiff.mp hAS, fun _ => rfl⟩
      · rw [if_neg hAS]
        constructor
        · intro hcon
          cases hcon
        · intro hall
          exact absurd (hiff.mpr hall) hAS
    · by_cases hAS : allSafeRevealed b2 = true
      · rw [if_pos hAS]
        left
        rfl
      · rw [if_neg hAS]
        right
        rfl

/-- Witness for C1 on the concrete board `sampleBoard` at `(1, 1)`. -/
theorem reveal_spec_witness :
    sampleBoard.Wf ∧ 1 < sampleBoard.rows ∧ 1 < sampleBoard.cols ∧
      RevealBehaviour sampleBoard 1 1 :=
  ⟨by decide, by decide, by decide, reveal_spec sampleBoard 1 1 (by decide) (by decide) (by decide)⟩

/-- C8: revealing a fresh zero-adjacency non-mine cell reveals a connected
region bounded by non-zero-adjacency or mined cells, and revealing any cell
of that region again leaves the board unchanged. -/
theorem reveal_zero_region (b : Board) (r c : Nat) (hwf : b.Wf)
    (hr : r < b.rows) (hc : c < b.cols)
    (hfr : (getCell b r c).revealed = false)
    (hfl : (getCell b r c).flagged = false)
    (hmine : (getCell b r c).is_mine = false)
    (hzero : (getCell b r c).adjacent_mine_count = 0) :
    ZeroRegionBehaviour b r c := by
  have hb : ¬(((getCell b r c).revealed || (getCell b r c).flagged) = true) := by
    rw [hfr, hfl]
    simp
  have hb2 : ¬((getCell b r c).is_mine = true) := by
    rw [hmine]
    simp
  have hwl : ∀ p ∈ [(r, c)], inRange b p := by
    intro p hp
    rcases List.mem_cons.mp hp with heqq | hp
    · rw [heqq]
      exact ⟨hr, hc⟩
    · cases hp
  have hfuel : 9 * unrevealedCount b + ([(r, c)] : List (Nat × Nat)).length
      < 9 * b.cells.length + 2 := by
    have hle : unrevealedCount b ≤ b.cells.length := List.countP_le_length _
    simp only [List.length_cons, List.length_nil]
    omega
  have hsome := revealFrom_isSome (9 * b.cells.length + 2) b [(r, c)] hwf hwl hfuel
  obtain ⟨res, hres⟩ := Option.isSome_iff_exists.mp hsome
  obtain ⟨b2, s⟩ := res
  have hrev : reveal b r c =
      ⟨b2, s, if allSafeRevealed b2 then Outcome.Won else Outcome.Continue⟩ := by
    unfold reveal
    rw [if_neg hb, if_neg hb2, hres]
  obtain ⟨f1, f2, f3, f4, f5, f6, f7, f8⟩ :=
    revealFrom_sound (9 * b.cells.length + 2) b [(r, c)] b2 s hwf hwl hres
  unfold ZeroRegionBehaviour
  rw [hrev]
  simp only
  refine ⟨?_, ?_, ?_⟩
  · exact revealFrom_reach (9 * b.cells.length + 2) b [(r, c)] b2 s
      (Reach b r c) hwf hwl hres
      (by
        intro q hq
        rcases List.mem_cons.mp hq with heqq | hq
        · rw [heqq]
          exact Reach.base
        · cases hq)
      (fun p hp hpr hpf hpz q hq => Reach.step p q hp hpf hpz hq)
  · intro p hp hz q hq hqfresh
    by_cases hmem : q ∈ s
    · exact hmem
    · exfalso
      obtain ⟨hq1, hq2⟩ := neighbors_mem_range hq
      have hpt := f6 q.1 q.2 hq1 hq2
      rw [if_neg (by
        intro hc2
        apply hmem
        have hqe : (q.1, q.2) = q := pair_ext rfl rfl
        rw [← hqe]
        exact hc2)] at hpt
      rcases f8 p hp hz q hq with hcon | hcon
      · rw [hpt, hqfresh.1] at hcon
        cases hcon
      · rw [hpt, hqfresh.2] at hcon
        cases hcon
  · intro p hp
    have hprange : inRange b p := (f5 p hp).1
    have hpt := f6 p.1 p.2 hprange.1 hprange.2
    rw [if_pos (by
      have hpe : (p.1, p.2) = p := pair_ext rfl rfl
      rw [hpe]
      exact hp)] at hpt
    have hrevd : ((getCell b2 p.1 p.2).revealed
        || (getCell b2 p.1 p.2).flagged) = true := by
      rw [hpt]
      simp
    unfold reveal
    rw [if_pos hrevd]

/-- Witness for C8 on the concrete board `sampleBoard3` at `(2, 2)`. -/
theorem reveal_zero_region_witness :
    sampleBoard3.Wf ∧ 2 < sampleBoard3.rows ∧ 2 < sampleBoard3.cols ∧
      (getCell sampleBoard3 2 2).revealed = false ∧
      (getCell sampleBoard3 2 2).flagged = false ∧
      (getCell sampleBoard3 2 2).is_mine = false ∧
      (getCell sampleBoard3 2 2).adjacent_mine_count = 0 ∧
      ZeroRegionBehaviour sampleBoard3 2 2 :=
  ⟨by decide, by decide, by decide, by decide, by decide, by decide, by decide,
    reveal_zero_region sampleBoard3 2 2 (by decide) (by decide) (by decide)
      (by decide) (by decide) (by decide) (by decide)⟩

/-- Unfolding one step of `runOps`. -/
theorem runOps_cons (room : Room) (op : RoomOp) (ops : List RoomOp) :
    runOps room (op :: ops) = runOps (applyRoomOp room op).1 ops := rfl

/-- A single operation never moves the phase backwards, and an Ended room is
left untouched. -/
theorem applyRoomOp_phase (room : Room) (op : RoomOp) :
    phaseIdx room.phase ≤ phaseIdx (applyRoomOp room op).1.phase ∧
    (room.phase = Phase.Ended → (applyRoomOp room op).1 = room) := by
  cases op with
  | Join pl ms =>
    unfold applyRoomOp applyJoin
    cases hph : room.phase <;> simp [hph, phaseIdx]
  | Op pid gop =>
    unfold applyRoomOp applyGameOp
    cases hph : room.phase <;> simp [hph, phaseIdx]
    rcases hbd : room.board with _ | b
    · simp only [hbd]
      split_ifs <;> simp [hph, phaseIdx]
    · simp only [hbd]
      cases gop with
      | Reveal row col =>
        split_ifs with hpart
        · simp [hph, phaseIdx]
        · rcases hrev : reveal b row col with ⟨b2, cells, oc⟩
          cases oc <;> simp [hrev, hph, phaseIdx] <;> split_ifs <;>
            simp [hph, phaseIdx]
      | Flag row col =>
        split_ifs <;> simp [hph, phaseIdx] <;> split_ifs <;> simp [hph, phaseIdx]

/-- C3: over every sequence of operations the phase moves only forward along
Lobby → InProgress → Ended, and once Ended the room (its board included) never
changes again. -/
theorem phase_monotone (room : Room) (ops : List RoomOp) :
    phaseIdx room.phase ≤ phaseIdx (runOps room ops).phase ∧
    (room.phase = Phase.Ended → runOps room ops = room) := by
  induction ops generalizing room with
  | nil => exact ⟨Nat.le_refl _, fun _ => rfl⟩
  | cons op rest ih =>
    rw [runOps_cons]
    have h1 := applyRoomOp_phase room op
    have h2 := ih (applyRoomOp room op).1
    constructor
    · exact le_trans h1.1 h2.1
    · intro hE
      rw [h1.2 hE]
      exact (ih room).2 hE

/-- Witness for C3 at a concrete Ended room and a concrete operation list. -/
theorem phase_monotone_witness :
    phaseIdx (Room.mk ⟨2, 2, 1⟩ 2 [] Phase.Ended none 0).phase ≤
      phaseIdx (runOps (Room.mk ⟨2, 2, 1⟩ 2 [] Phase.Ended none 0)
        [RoomOp.Op ("u1") (GOp.Reveal 0 0)]).phase ∧
    ((Room.mk ⟨2, 2, 1⟩ 2 [] Phase.Ended none 0).phase = Phase.Ended →
      runOps (Room.mk ⟨2, 2, 1⟩ 2 [] Phase.Ended none 0)
        [RoomOp.Op ("u1") (GOp.Reveal 0 0)] = Room.mk ⟨2, 2, 1⟩ 2 [] Phase.Ended none 0) :=
  phase_monotone (Room.mk ⟨2, 2, 1⟩ 2 [] Phase.Ended none 0)
    [RoomOp.Op ("u1") (GOp.Reveal 0 0)]

/-- A game operation never changes the player list or the capacity. -/
theorem applyGameOp_players (room : Room) (pid : String) (gop : GOp) :
    (applyGameOp room pid gop).1.players = room.players ∧
    (applyGameOp room pid gop).1.capacity = room.capacity := by
  unfold applyGameOp
  cases hph : room.phase <;> simp [hph]
  rcases hbd : room.board with _ | b
  · simp only [hbd]
    split_ifs <;> simp
  · simp only [hbd]
    cases gop with
    | Reveal row col =>
      split_ifs with hpart
      · simp
      · rcases hrev : reveal b row col with ⟨b2, cells, oc⟩
        cases oc <;> simp [hrev] <;> split_ifs <;> simp
    | Flag row col =>
      split_ifs <;> simp <;> split_ifs <;> simp

/-- One operation preserves distinct user ids, the capacity bound, and the
capacity itself. -/
theorem applyRoomOp_inv (room : Room) (op : RoomOp)
    (h1 : (room.players.map Player.user_id).Nodup)
    (h2 : room.players.length ≤ room.capacity) :
    ((applyRoomOp room op).1.players.map Player.user_id).Nodup ∧
    (applyRoomOp room op).1.players.length ≤ (applyRoomOp room op).1.capacity ∧
    (applyRoomOp room op).1.capacity = room.capacity := by
  cases op with
  | Join pl ms =>
    unfold applyRoomOp applyJoin
    cases hph : room.phase
    · simp only [hph]
      split_ifs with ha hcap hstart
      · exact ⟨h1, h2, rfl⟩
      · exact ⟨h1, h2, rfl⟩
      · have hnew : pl.user_id ∉ room.players.map Player.user_id := by
          intro hmem
          obtain ⟨q, hq, hqe⟩ := List.mem_map.mp hmem
          apply ha
          rw [List.any_eq_true]
          exact ⟨q, hq, beq_iff_eq.mpr hqe⟩
        refine ⟨?_, ?_, rfl⟩
        · show ((room.players ++ [pl]).map Player.user_id).Nodup
          simp only [List.map_append, List.map_cons, List.map_nil]
          rw [List.nodup_append]
          refine ⟨h1, List.nodup_singleton _, ?_⟩
          intro x hx hx2
          rcases List.mem_cons.mp hx2 with hx2 | hx2
          · rw [hx2] at hx
            exact hnew hx
          · cases hx2
        · show (room.players ++ [pl]).length ≤ room.capacity
          simp only [List.length_append, List.length_cons, List.length_nil]
          omega
      · have hnew : pl.user_id ∉ room.players.map Player.user_id := by
          intro hmem
          obtain ⟨q, hq, hqe⟩ := List.mem_map.mp hmem
          apply ha
          rw [List.any_eq_true]
          exact ⟨q, hq, beq_iff_eq.mpr hqe⟩
        refine ⟨?_, ?_, rfl⟩
        · show ((room.players ++ [pl]).map Player.user_id).Nodup
          simp only [List.map_append, List.map_cons, List.map_nil]
          rw [List.nodup_append]
          refine ⟨h1, List.nodup_singleton _, ?_⟩
          intro x hx hx2
          rcases List.mem_cons.mp hx2 with hx2 | hx2
          · rw [hx2] at hx
            exact hnew hx
          · cases hx2
        · show (room.players ++ [pl]).length ≤ room.capacity
          simp only [List.length_append, List.length_cons, List.length_nil]
          omega
    · simp only [hph]
      exact ⟨h1, h2, trivial⟩
    · simp only [hph]
      exact ⟨h1, h2, trivial⟩
  | Op pid gop =>
    obtain ⟨hp, hc⟩ := applyGameOp_players room pid gop
    unfold applyRoomOp
    rw [hp, hc]
    exact ⟨h1, h2, rfl⟩

/-- The invariants survive every sequence of operations. -/
theorem runOps_inv (room : Room) (ops : List RoomOp)
    (h1 : (room.players.map Player.user_id).Nodup)
    (h2 : room.players.length ≤ room.capacity) :
    ((runOps room ops).players.map Player.user_id).Nodup ∧
    (runOps room ops).players.length ≤ (runOps room ops).capacity ∧
    (runOps room ops).capacity = room.capacity := by
  induction ops generalizing room with
  | nil => exact ⟨h1, h2, rfl⟩
  | cons op rest ih =>
    rw [runOps_cons]
    obtain ⟨g1, g2, g3⟩ := applyRoomOp_inv room op h1 h2
    obtain ⟨k1, k2, k3⟩ := ih (applyRoomOp room op).1 g1 g2
    exact ⟨k1, k2, k3.trans g3⟩

/-- C5: in a Lobby room, `JoinRoom` appends the player exactly when no entry
shares its `user_id` and the room is below capacity, rejecting with
`room full` at capacity; consequently, over every operation sequence the
player list keeps pairwise distinct `user_id`s and never exceeds the
configured capacity. -/
theorem join_spec (ms : Finset (Nat × Nat)) (room : Room) (pl : Player)
    (ops : List RoomOp)
    (hnd : (room.players.map Player.user_id).Nodup)
    (hcap : room.players.length ≤ room.capacity) :
    (room.phase = Phase.Lobby →
      ((∃ q ∈ room.players, q.user_id = pl.user_id) →
        applyJoin ms room pl =
          (room, [ResponseModel.InvalidRequest ("already joined")])) ∧
      ((∀ q ∈ room.players, q.user_id ≠ pl.user_id) →
        room.capacity ≤ room.players.length →
        applyJoin ms room pl =
          (room, [ResponseModel.InvalidRequest ("room full")])) ∧
      ((∀ q ∈ room.players, q.user_id ≠ pl.user_id) →
        room.players.length < room.capacity →
        (applyJoin ms room pl).1.players = room.players ++ [pl])) ∧
    ((runOps room ops).players.map Player.user_id).Nodup ∧
    (runOps room ops).players.length ≤ room.capacity := by
  obtain ⟨k1, k2, k3⟩ := runOps_inv room ops hnd hcap
  refine ⟨?_, k1, by rw [← k3]; exact k2⟩
  intro hph
  have hanyiff : (room.players.any fun q => q.user_id == pl.user_id) = true ↔
      ∃ q ∈ room.players, q.user_id = pl.user_id := by
    rw [List.any_eq_true]
    constructor
    · intro ⟨q, hq, he⟩
      exact ⟨q, hq, beq_iff_eq.mp he⟩
    · intro ⟨q, hq, he⟩
      exact ⟨q, hq, beq_iff_eq.mpr he⟩
  refine ⟨?_, ?_, ?_⟩
  · intro hex
    unfold applyJoin
    rw [hph]
    simp only
    rw [if_pos (hanyiff.mpr hex)]
  · intro hnone hfull
    have hany : ¬((room.players.any fun q => q.user_id == pl.user_id) = true) := by
      intro hc2
      obtain ⟨q, hq, he⟩ := hanyiff.mp hc2
      exact hnone q hq he
    unfold applyJoin
    rw [hph]
    simp only
    rw [if_neg hany, if_pos hfull]
  · intro hnone hlt
    have hany : ¬((room.players.any fun q => q.user_id == pl.user_id) = true) := by
      intro hc2
      obtain ⟨q, hq, he⟩ := hanyiff.mp hc2
      exact hnone q hq he
    unfold applyJoin
    rw [hph]
    simp only
    rw [if_neg hany, if_neg (by omega)]
    by_cases hstart : room.players.length + 1 = room.capacity
    · rw [if_pos hstart]
    · rw [if_neg hstart]

/-- Witness for C5 at a concrete Lobby room, player and operation list. -/
theorem join_spec_witness :
    (((Room.mk ⟨2, 2, 1⟩ 2 [] Phase.Lobby none 0).players.map Player.user_id).Nodup ∧
      (Room.mk ⟨2, 2, 1⟩ 2 [] Phase.Lobby none 0).players.length ≤
        (Room.mk ⟨2, 2, 1⟩ 2 [] Phase.Lobby none 0).capacity) ∧
    (((Room.mk ⟨2, 2, 1⟩ 2 [] Phase.Lobby none 0).phase = Phase.Lobby →
      ((∃ q ∈ (Room.mk ⟨2, 2, 1⟩ 2 [] Phase.Lobby none 0).players,
          q.user_id = (Player.mk ("u1") ("n1") ("i1")).user_id) →
        applyJoin {(0, 0)} (Room.mk ⟨2, 2, 1⟩ 2 [] Phase.Lobby none 0)
            (Player.mk ("u1") ("n1") ("i1")) =
          (Room.mk ⟨2, 2, 1⟩ 2 [] Phase.Lobby none 0,
            [ResponseModel.InvalidRequest ("already joined")])) ∧
      ((∀ q ∈ (Room.mk ⟨2, 2, 1⟩ 2 [] Phase.Lobby none 0).players,
          q.user_id ≠ (Player.mk ("u1") ("n1") ("i1")).user_id) →
        (Room.mk ⟨2, 2, 1⟩ 2 [] Phase.Lobby none 0).capacity ≤
          (Room.mk ⟨2, 2, 1⟩ 2 [] Phase.Lobby none 0).players.length →
        applyJoin {(0, 0)} (Room.mk ⟨2, 2, 1⟩ 2 [] Phase.Lobby none 0)
            (Player.mk ("u1") ("n1") ("i1")) =
          (Room.mk ⟨2, 2, 1⟩ 2 [] Phase.Lobby none 0,
            [ResponseModel.InvalidRequest ("room full")])) ∧
      ((∀ q ∈ (Room.mk ⟨2, 2, 1⟩ 2 [] Phase.Lobby none 0).players,
          q.user_id ≠ (Player.mk ("u1") ("n1") ("i1")).user_id) →
        (Room.mk ⟨2, 2, 1⟩ 2 [] Phase.Lobby none 0).players.length <
          (Room.mk ⟨2, 2, 1⟩ 2 [] Phase.Lobby none 0).capacity →
        (applyJoin {(0, 0)} (Room.mk ⟨2, 2, 1⟩ 2 [] Phase.Lobby none 0)
            (Player.mk ("u1") ("n1") ("i1"))).1.players =
          (Room.mk ⟨2, 2, 1⟩ 2 [] Phase.Lobby none 0).players ++
            [Player.mk ("u1") ("n1") ("i1")])) ∧
    ((runOps (Room.mk ⟨2, 2, 1⟩ 2 [] Phase.Lobby none 0)
        [RoomOp.Join (Player.mk ("u1") ("n1") ("i1")) {(0, 0)}]).players.map
          Player.user_id).Nodup ∧
    (runOps (Room.mk ⟨2, 2, 1⟩ 2 [] Phase.Lobby none 0)
        [RoomOp.Join (Player.mk ("u1") ("n1") ("i1")) {(0, 0)}]).players.length ≤
      (Room.mk ⟨2, 2, 1⟩ 2 [] Phase.Lobby none 0).capacity) :=
  ⟨⟨by decide, by decide⟩,
    join_spec {(0, 0)} (Room.mk ⟨2, 2, 1⟩ 2 [] Phase.Lobby none 0)
      (Player.mk ("u1") ("n1") ("i1"))
      [RoomOp.Join (Player.mk ("u1") ("n1") ("i1")) {(0, 0)}]
      (by decide) (by decide)⟩

/-- Mapping a key-replacement over entries none of which carry the key is the
identity. -/
theorem map_if_id (l : List (String × Room)) (rid : String) (room : Room)
    (h : ∀ e ∈ l, (e.1 == rid) = false) :
    (l.map fun e => if e.1 == rid then (e.1, room) else e) = l := by
  induction l with
  | nil => rfl
  | cons hd tl ih =>
    simp only [List.map_cons]
    have hc : ¬((hd.1 == rid) = true) := by
      rw [h hd (List.mem_cons_self _ _)]
      simp
    rw [if_neg hc, ih fun e he => h e (List.mem_cons_of_mem _ he)]

/-- Writing back the very room that `lookup` returns leaves a well-formed
registry unchanged. -/
theorem updateRoom_self (reg : Registry) (rid : String) (room : Room)
    (hwf : RegWf reg) (hl : lookup reg rid = some room) :
    updateRoom reg rid room = reg := by
  obtain ⟨rooms⟩ := reg
  unfold RegWf at hwf
  unfold lookup at hl
  unfold updateRoom
  simp only at hwf hl ⊢
  congr 1
  induction rooms with
  | nil =>
    cases hl
  | cons hd tl ih =>
    rw [List.map_cons, List.nodup_cons] at hwf
    by_cases hhd : (hd.1 == rid) = true
    · simp only [List.find?_cons, hhd, cond_true] at hl
      have hd2 : hd.2 = room := by
        simpa using hl
      have hd1 : hd.1 = rid := beq_iff_eq.mp hhd
      simp only [List.map_cons, if_pos hhd]
      have hfst : (hd.1, room) = hd := by
        rw [← hd2]
      rw [hfst]
      have htl : ∀ e ∈ tl, (e.1 == rid) = false := by
        intro e he
        have hne : e.1 ≠ hd.1 := by
          intro hc2
          exact hwf.1 (List.mem_map.mpr ⟨e, he, hc2⟩)
        rw [beq_eq_false_iff_ne]
        rw [hd1] at hne
        exact hne
      rw [map_if_id tl rid room htl]
    · rw [Bool.not_eq_true] at hhd
      simp only [List.find?_cons, hhd, cond_false] at hl
      rw [← Bool.not_eq_true] at hhd
      simp only [List.map_cons, if_neg hhd]
      rw [ih hwf.2 hl]

/-- A rejected join leaves the room untouched. -/
theorem applyJoin_invalid (ms : Finset (Nat × Nat)) (room : Room) (pl : Player)
    (h : ∃ e, ResponseModel.InvalidRequest e ∈ (applyJoin ms room pl).2) :
    (applyJoin ms room pl).1 = room := by
  obtain ⟨e, he⟩ := h
  unfold applyJoin at he ⊢
  cases hph : room.phase <;> simp only [hph] at he ⊢
  split_ifs at he ⊢ <;> simp_all

/-- A rejected game operation leaves the room untouched. -/
theorem applyGameOp_invalid (room : Room) (pid : String) (gop : GOp)
    (h : ∃ e, ResponseModel.InvalidRequest e ∈ (applyGameOp room pid gop).2) :
    (applyGameOp room pid gop).1 = room := by
  obtain ⟨e, he⟩ := h
  unfold applyGameOp at he ⊢
  cases hph : room.phase <;> simp only [hph] at he ⊢
  split_ifs at he ⊢ with hpart
  · rfl
  · rcases hbd : room.board with _ | b
    · rfl
    · cases gop with
      | Reveal row col =>
        rw [hbd] at he
        simp only at he ⊢
        split_ifs at he ⊢ with hrange
        · rcases hrev : reveal b row col with ⟨b2, cells, oc⟩
          cases oc <;> simp_all
        · rfl
      | Flag row col =>
        rw [hbd] at he
        simp only at he ⊢
        split_ifs at he ⊢ with hrange
        · simp_all
        · rfl

/-- C4: every rejected request produces an `InvalidRequest` event and mutates
nothing; in particular an Ended room rejects every `JoinRoom`/`GameOp` with
the error `room ended`. -/
theorem rejected_request_spec (cap : Nat) (ms : Finset (Nat × Nat))
    (reg : Registry) (msg : Option Request) (hwf : RegWf reg) :
    RejectionBehaviour cap ms reg msg := by
  unfold RejectionBehaviour
  refine ⟨rfl, ?_, ?_, ?_, ?_⟩
  · intro h
    cases msg with
    | none => rfl
    | some req =>
      cases req with
      | InitRoom cfg pl =>
        obtain ⟨e, he⟩ := h
        simp only [handle, create] at he
        simp at he
      | JoinRoom rid pl =>
        cases hl : lookup reg rid with
        | none =>
          simp only [handle, hl]
        | some room =>
          obtain ⟨e, he⟩ := h
          simp only [handle, hl] at he ⊢
          have hroom := applyJoin_invalid ms room pl ⟨e, he⟩
          rw [hroom]
          exact updateRoom_self reg rid room hwf hl
      | GameOp rid pid op =>
        cases hl : lookup reg rid with
        | none =>
          simp only [handle, hl]
        | some room =>
          obtain ⟨e, he⟩ := h
          simp only [handle, hl] at he ⊢
          have hroom := applyGameOp_invalid room pid op ⟨e, he⟩
          rw [hroom]
          exact updateRoom_self reg rid room hwf hl
  · intro rid room pl pid op hl hph
    have hj : applyJoin ms room pl =
        (room, [ResponseModel.InvalidRequest ("room ended")]) := by
      unfold applyJoin
      rw [hph]
    have hg : applyGameOp room pid op =
        (room, [ResponseModel.InvalidRequest ("room ended")]) := by
      unfold applyGameOp
      rw [hph]
    constructor
    · simp only [handle, hl, hj]
      rw [updateRoom_self reg rid room hwf hl]
    · simp only [handle, hl, hg]
      rw [updateRoom_self reg rid room hwf hl]
  · intro rid pl pid op hl
    constructor
    · simp only [handle, hl]
    · simp only [handle, hl]
  · intro rid room pid op hl hph hnp
    have hall : (room.players.all fun q => !(q.user_id == pid)) = true := by
      rw [List.all_eq_true]
      intro q hq
      rw [Bool.not_eq_eq_eq_not]
      simp only [Bool.not_true]
      rw [beq_eq_false_iff_ne]
      exact hnp q hq
    have hg : applyGameOp room pid op =
        (room, [ResponseModel.InvalidRequest ("not a participant")]) := by
      unfold applyGameOp
      rw [hph]
      split_ifs with hcond
      all_goals (first | rfl | exact absurd hall hcond)
    simp only [handle, hl, hg]
    rw [updateRoom_self reg rid room hwf hl]

/-- Witness for C4 at the concrete registry `sampleRegistry`. -/
theorem rejected_request_spec_witness :
    RegWf sampleRegistry ∧
      RejectionBehaviour 2 {(0, 0)} sampleRegistry
        (some (Request.GameOp ("66666") ("u1") (GOp.Reveal 0 0))) :=
  ⟨by decide,
    rejected_request_spec 2 {(0, 0)} sampleRegistry
      (some (Request.GameOp ("66666") ("u1") (GOp.Reveal 0 0))) (by decide)⟩

/-- Decimal digit characters are distinct. -/
theorem digitChar_inj : ∀ d1 < 10, ∀ d2 < 10,
    Nat.digitChar d1 = Nat.digitChar d2 → d1 = d2 := by decide

/-- `pad5` is injective below 100000. -/
theorem pad5_inj {a b : Nat} (ha : a < 100000) (hb : b < 100000)
    (h : pad5 a = pad5 b) : a = b := by
  unfold pad5 at h
  injection h with hdata
  simp only [List.cons.injEq, and_true] at hdata
  obtain ⟨h1, h2, h3, h4, h5⟩ := hdata
  have e1 := digitChar_inj _ (Nat.mod_lt _ (by omega)) _ (Nat.mod_lt _ (by omega)) h1
  have e2 := digitChar_inj _ (Nat.mod_lt _ (by omega)) _ (Nat.mod_lt _ (by omega)) h2
  have e3 := digitChar_inj _ (Nat.mod_lt _ (by omega)) _ (Nat.mod_lt _ (by omega)) h3
  have e4 := digitChar_inj _ (Nat.mod_lt _ (by omega)) _ (Nat.mod_lt _ (by omega)) h4
  have e5 := digitChar_inj _ (Nat.mod_lt _ (by omega)) _ (Nat.mod_lt _ (by omega)) h5
  omega

/-- `lookup` misses exactly when no entry carries the identifier. -/
theorem lookup_none_iff (reg : Registry) (rid : String) :
    lookup reg rid = none ↔ ∀ e ∈ reg.rooms, e.1 ≠ rid := by
  unfold lookup
  rw [Option.map_eq_none', List.find?_eq_none]
  constructor
  · intro h e he hc2
    have hfa := h e he
    rw [hc2] at hfa
    simp at hfa
  · intro h e he
    intro hc2
    exact h e he (beq_iff_eq.mp hc2)

/-- The generated identifier is always 5 characters long. -/
theorem freshId_length (reg : Registry) : (freshId reg).length = 5 := by
  unfold freshId
  cases hfind : ((List.range (reg.rooms.length + 1)).map pad5).find? fun s =>
      (lookup reg s).isNone with
  | none => rfl
  | some s =>
    have hmem := List.mem_of_find?_eq_some hfind
    obtain ⟨k, _, hk⟩ := List.mem_map.mp hmem
    simp only [Option.getD_some]
    rw [← hk]
    rfl

/-- While fewer than 100000 rooms are live, the generated identifier is not
in use by any live room. -/
theorem freshId_fresh (reg : Registry) (hsize : reg.rooms.length < 100000) :
    lookup reg (freshId reg) = none := by
  cases hfind : ((List.range (reg.rooms.length + 1)).map pad5).find? fun s =>
      (lookup reg s).isNone with
  | some s =>
    have hp := List.find?_some hfind
    have hfid : freshId reg = s := by
      unfold freshId
      rw [hfind]
      rfl
    rw [hfid]
    exact Option.isNone_iff_eq_none.mp hp
  | none =>
    exfalso
    have hall := List.find?_eq_none.mp hfind
    have hsub : ∀ s ∈ (List.range (reg.rooms.length + 1)).map pad5,
        s ∈ reg.rooms.map Prod.fst := by
      intro s hs
      have hf := hall s hs
      cases hl : lookup reg s with
      | none =>
        rw [hl] at hf
        simp at hf
      | some room =>
        unfold lookup at hl
        cases hfe : reg.rooms.find? (fun e => e.1 == s) with
        | none =>
          rw [hfe] at hl
          cases hl
        | some e =>
          have hpe := List.find?_some hfe
          have hmem := List.mem_of_find?_eq_some hfe
          have he1 : e.1 = s := beq_iff_eq.mp hpe
          rw [← he1]
          exact List.mem_map.mpr ⟨e, hmem, rfl⟩
    have hnodup : ((List.range (reg.rooms.length + 1)).map pad5).Nodup := by
      apply List.Nodup.map_on ?_ (List.nodup_range _)
      intro x hx y hy hxy
      exact pad5_inj (by have := List.mem_range.mp hx; omega)
        (by have := List.mem_range.mp hy; omega) hxy
    have hlen : ((List.range (reg.rooms.length + 1)).map pad5).length
        = reg.rooms.length + 1 := by
      simp
    have hfin1 : ((List.range (reg.rooms.length + 1)).map pad5).toFinset.card
        = reg.rooms.length + 1 := by
      rw [List.toFinset_card_of_nodup hnodup, hlen]
    have hfin2 : ((List.range (reg.rooms.length + 1)).map pad5).toFinset ⊆
        (reg.rooms.map Prod.fst).toFinset := by
      intro x hx
      rw [List.mem_toFinset] at hx ⊢
      exact hsub x hx
    have hle := Finset.card_le_card hfin2
    have hle2 := List.toFinset_card_le (reg.rooms.map Prod.fst)
    rw [hfin1] at hle
    rw [List.length_map] at hle2
    omega

/-- C6: `create` returns a 5-character identifier unused by every live room,
inserts a Lobby room whose player list is exactly the initiator, and replies
`InitRoom{room_id}` with that identifier. -/
theorem create_spec (reg : Registry) (cfg : RoomConfig) (cap : Nat)
    (pl : Player) (hwf : RegWf reg) (hsize : reg.rooms.length < 100000) :
    CreateBehaviour reg cfg cap pl := by
  unfold CreateBehaviour
  have hfresh := freshId_fresh reg hsize
  have hnotmem : freshId reg ∉ reg.rooms.map Prod.fst := by
    intro hmem
    obtain ⟨e, he, he1⟩ := List.mem_map.mp hmem
    exact ((lookup_none_iff reg (freshId reg)).mp hfresh) e he he1
  refine ⟨freshId_length reg, hfresh, hnotmem, ?_, rfl, rfl, ?_⟩
  · show lookup
      ⟨(freshId reg, Room.mk cfg cap [pl] Phase.Lobby none 0) :: reg.rooms⟩
      (freshId reg) = some (Room.mk cfg cap [pl] Phase.Lobby none 0)
    unfold lookup
    simp only [List.find?_cons, beq_self_eq_true, cond_true, Option.map_some']
  · show RegWf ⟨(freshId reg, Room.mk cfg cap [pl] Phase.Lobby none 0) :: reg.rooms⟩
    unfold RegWf at hwf ⊢
    simp only [List.map_cons]
    exact List.nodup_cons.mpr ⟨hnotmem, hwf⟩

/-- Witness for C6 on the empty registry. -/
theorem create_spec_witness :
    RegWf (Registry.mk []) ∧ (Registry.mk []).rooms.length < 100000 ∧
      CreateBehaviour (Registry.mk []) ⟨10, 10, 16⟩ 2
        (Player.mk ("u1") ("n1") ("i1")) :=
  ⟨by decide, by decide,
    create_spec (Registry.mk []) ⟨10, 10, 16⟩ 2 (Player.mk ("u1") ("n1") ("i1"))
      (by decide) (by decide)⟩

/-- Decoding inverts encoding on coordinates. -/
theorem decodePair_encodePair (p : Nat × Nat) :
    decodePair (encodePair p) = some p := rfl

/-- Decoding inverts encoding on coordinate lists (worklist form). -/
theorem mapM_loop_decodePair (l : List (Nat × Nat)) (acc : List (Nat × Nat)) :
    List.mapM.loop decodePair (l.map encodePair) acc = some (acc.reverse ++ l) := by
  induction l generalizing acc with
  | nil => simp [List.mapM.loop]
  | cons hd tl ih =>
    simp [List.mapM.loop, decodePair_encodePair, ih]

/-- Decoding inverts encoding on players. -/
theorem decodePlayer_encodePlayer (p : Player) :
    decodePlayer (encodePlayer p) = some p := by
  simp [decodePlayer, encodePlayer, jfield]

/-- Decoding inverts encoding on player lists (worklist form). -/
theorem mapM_loop_decodePlayer (l : List Player) (acc : List Player) :
    List.mapM.loop decodePlayer (l.map encodePlayer) acc
      = some (acc.reverse ++ l) := by
  induction l generalizing acc with
  | nil => simp [List.mapM.loop]
  | cons hd tl ih =>
    simp [List.mapM.loop, decodePlayer_encodePlayer, ih]

/-- Decoding inverts encoding on configurations. -/
theorem decodeConfig_encodeConfig (cfg : RoomConfig) :
    decodeConfig (encodeConfig cfg) = some cfg := by
  simp [decodeConfig, encodeConfig, jfield]

/-- Decoding inverts encoding on outcomes. -/
theorem decodeOutcome_encodeOutcome (oc : Outcome) :
    decodeOutcome (encodeOutcome oc) = some oc := by
  cases oc <;> simp [decodeOutcome, encodeOutcome]

/-- Decoding inverts encoding on op results. -/
theorem decodeOpResult_encodeOpResult (o : OpResult) :
    decodeOpResult (encodeOpResult o) = some o := by
  cases o with
  | mk rc fl oc =>
    simp [decodeOpResult, encodeOpResult, jfield, decodeOpResultFields,
      mapM_loop_decodePair, decodeOutcome_encodeOutcome]

/-- C7: every outbound variant encodes to a self-describing tagged object
whose `type` field equals the variant's name, and decoding the encoded object
recovers the variant (encoding is the structural inverse of decoding). -/
theorem codec_roundtrip (m : ResponseModel) :
    decodeResponse (encodeResponse m) = some m ∧
    tagOf (encodeResponse m) = some (responseTag m) := by
  cases m with
  | JoinRoom player =>
    constructor
    · simp [decodeResponse, encodeResponse, jfield, decodePlayer_encodePlayer]
    · simp [tagOf, encodeResponse, jfield, responseTag]
  | InitRoom room_id =>
    constructor
    · simp [decodeResponse, encodeResponse, jfield]
    · simp [tagOf, encodeResponse, jfield, responseTag]
  | GameStart players config =>
    constructor
    · simp [decodeResponse, encodeResponse, jfield, decodeGameStartFields,
        mapM_loop_decodePlayer, decodeConfig_encodeConfig]
    · simp [tagOf, encodeResponse, jfield, responseTag]
  | GameOpRes op_res =>
    constructor
    · simp [decodeResponse, encodeResponse, jfield,
        decodeOpResult_encodeOpResult]
    · simp [tagOf, encodeResponse, jfield, responseTag]
  | GameEnd success scores duration steps =>
    constructor
    · simp [decodeResponse, encodeResponse, jfield]
    · simp [tagOf, encodeResponse, jfield, responseTag]
  | InvalidRequest error =>
    constructor
    · simp [decodeResponse, encodeResponse, jfield]
    · simp [tagOf, encodeResponse, jfield, responseTag]

end Minesweeper

namespace PyServer

/-- C10: for every connection and every value of the optional `client_id`
query parameter, the `server` handler of the bundled Python file raises
`NameError` on `MPMInferService`, which the module never defines or imports,
so this file never serves a connection. -/
theorem server_handler_name_error (client_id : Option String) :
    runServerHandler client_id =
      Except.error (PyError.nameError ("MPMInferService")) := by
  rfl

end PyServer
